import Mathlib

/-!
A shallow embedding of the branch-aware file synchronisation engine of
`claude_wrapper` (Go, `package main`).  Directories are modelled as
association lists from entry names to entries; file contents are strings
and permission bits are naturals.  `os.ReadDir` order is the list order.
-/

namespace ClaudeWrapper

/-- A filesystem entry: a regular file (content, permission bits) or a
directory (permission bits, children). -/
inductive Entry : Type where
  | file (content : String) (mode : Nat)
  | dir (mode : Nat) (children : List (String × Entry))

/-- The children of a directory, i.e. a directory listing. -/
abbrev FsDir := List (String × Entry)

/-- Look up a child entry by name (first match). -/
def findEntry (n : String) : FsDir → Option Entry
  | [] => none
  | (m, e) :: rest => if m = n then some e else findEntry n rest

/-- Write a child entry: replace the first entry with that name in place,
or append a new one.  Models creating/overwriting the filesystem object
at `<dir>/<n>`. -/
def insertEntry (n : String) (v : Entry) : FsDir → FsDir
  | [] => [(n, v)]
  | (m, e) :: rest => if m = n then (n, v) :: rest else (m, e) :: insertEntry n v rest

/-- Remove the child entry with the given name (models `os.RemoveAll`). -/
def eraseEntry (n : String) : FsDir → FsDir
  | [] => []
  | (m, e) :: rest => if m = n then rest else (m, e) :: eraseEntry n rest

/-- Well-formedness of an entry: every directory in the tree has
duplicate-free child names (true of any real directory). -/
inductive WF : Entry → Prop where
  | file (c m) : WF (.file c m)
  | dir (m) (ch : FsDir) (hnd : (ch.map Prod.fst).Nodup)
      (hch : ∀ p ∈ ch, WF p.2) : WF (.dir m ch)

/-- Well-formedness of a directory listing. -/
def WFd (d : FsDir) : Prop := (d.map Prod.fst).Nodup ∧ ∀ p ∈ d, WF p.2

mutual

/-- `copyPath src dst` from the source: stat `src`; directories go through
`copyDir`, files through `copyFile`.  `dst` is the entry currently at the
destination path (`none` when absent); the result is the new destination
entry, `none` signalling an I/O error (`os.Create` on an existing
directory, `os.MkdirAll` over an existing file). -/
def copyEntry : Entry → Option Entry → Option Entry
  | .file _ _, some (.dir _ _) => none
  | .file c m, _ => some (.file c m)
  | .dir _ _, some (.file _ _) => none
  | .dir _ ch, some (.dir m0 ch0) => (copyChildren ch ch0).map (.dir m0)
  | .dir m ch, none => (copyChildren ch []).map (.dir m)

/-- The loop of `copyDir`: copy each source child onto the destination
listing in order.  Children already present at the destination but not in
the source are left in place (`copyDir` never deletes). -/
def copyChildren : List (String × Entry) → FsDir → Option FsDir
  | [], dst => some dst
  | (n, e) :: rest, dst =>
    match copyEntry e (findEntry n dst) with
    | none => none
    | some e' => copyChildren rest (insertEntry n e' dst)

end

/-! ### Constants from the source -/

def deletionMarker : String := ".deleted_at"

def branchesDir : String := "branches"

def deletionGraceDays : Nat := 7

/-! ### String helpers (Go `strings` package, ASCII fragment) -/

/-- ASCII fragment of Go `unicode.IsSpace`, as used by `strings.TrimSpace`. -/
def isSpaceChar (c : Char) : Bool :=
  c == ' ' || c == '\t' || c == '\n' || c == '\x0b' || c == '\x0c' || c == '\r'

/-- `strings.TrimSpace`. -/
def trimSpace (s : String) : String :=
  ⟨((s.data.dropWhile isSpaceChar).reverse.dropWhile isSpaceChar).reverse⟩

/-- One of the glob metacharacters of `strings.ContainsAny(line, "*?[]")`. -/
def isGlobChar (c : Char) : Bool :=
  c == '*' || c == '?' || c == '[' || c == ']'

/-- `strings.ContainsAny(s, "*?[]")`. -/
def containsGlob (s : String) : Bool := s.data.any isGlobChar

/-- `strings.HasPrefix(s, "#")`. -/
def startsWithHash (s : String) : Bool :=
  match s.data with
  | [] => false
  | c :: _ => c == '#'

/-- `strings.TrimSuffix(s, "/")`: strip one trailing slash if present. -/
def trimSlashSuffix (s : String) : String :=
  match s.data.reverse with
  | '/' :: rest => ⟨rest.reverse⟩
  | _ => s

/-- Worker for `replaceAll`.  The fuel argument only makes the recursion
structural (each step strictly shortens `s`, so `s.length` fuel always
suffices); it never changes the result on reachable inputs. -/
def replaceAllAux : Nat → List Char → List Char → List Char → List Char
  | 0, s, _, _ => s
  | fuel + 1, s, old, new =>
    if old ≠ [] ∧ old.isPrefixOf s then
      new ++ replaceAllAux fuel (s.drop old.length) old new
    else
      match s with
      | [] => []
      | c :: rest => c :: replaceAllAux fuel rest old new

/-- Go `strings.ReplaceAll` for a non-empty pattern: repeatedly replace the
leftmost occurrence of `old` and continue after the replacement. -/
def replaceAll (s old new : List Char) : List Char :=
  replaceAllAux s.length s old new

/-- `sanitizeBranchName` percent-encodes `%` and then `/`. -/
def sanitizeBranchName (branch : String) : String :=
  ⟨replaceAll (replaceAll branch.data ['%'] ['%', '2', '5']) ['/'] ['%', '2', 'F']⟩

/-- `unsanitizeBranchName` decodes `%2F` and then `%25`. -/
def unsanitizeBranchName (name : String) : String :=
  ⟨replaceAll (replaceAll name.data ['%', '2', 'F'] ['/']) ['%', '2', '5'] ['%']⟩

/-- Value of a digit string. -/
def digitsToNat (ds : List Char) : Nat :=
  ds.foldl (fun acc c => acc * 10 + (c.toNat - '0'.toNat)) 0

/-- `strconv.ParseInt(s, 10, 64)`: optional sign, then a non-empty run of
decimal digits, rejecting values outside the signed 64-bit range. -/
def parseInt64 (s : String) : Option Int :=
  let signAndDigits : Bool × List Char :=
    match s.data with
    | '+' :: rest => (false, rest)
    | '-' :: rest => (true, rest)
    | l => (false, l)
  let neg := signAndDigits.1
  let ds := signAndDigits.2
  if ds.isEmpty then none
  else if ds.all Char.isDigit then
    let v := digitsToNat ds
    if neg then
      if v ≤ 2 ^ 63 then some (-(v : Int)) else none
    else
      if v ≤ 2 ^ 63 - 1 then some (v : Int) else none
  else none

/-! ### Exclude List Manager (`.git/info/exclude`, modelled as its lines) -/

/-- `addToExclude`: scan the existing lines and no-op when one of them
trims to `item`; otherwise append `item` as a new line. -/
def addToExclude (lines : List String) (item : String) : List String :=
  if lines.any (fun l => trimSpace l == item) then lines else lines ++ [item]

/-- `readExcludeFile`: trim each line; skip blanks, `#` comments and lines
with glob metacharacters; strip one trailing `/`; keep only entries that
exist in the working tree.  (Entries are modelled as single-segment names
looked up at the working-tree root.) -/
def readExcludeFile (lines : List String) (work : FsDir) : List String :=
  lines.filterMap (fun raw =>
    let line := trimSpace raw
    if line = "" then none
    else if startsWithHash line then none
    else if containsGlob line then none
    else
      let item := trimSlashSuffix line
      if (findEntry item work).isSome then some item else none)

/-! ### Sync Engine -/

/-- `listDir`: names of the entries of a directory (absent directory ≡ `[]`). -/
def listDir (d : FsDir) : List String := d.map Prod.fst

/-- `filterItems`: drop the entries named `.deleted_at` and `branches`. -/
def filterItems : List String → List String
  | [] => []
  | item :: rest =>
    if item = deletionMarker ∨ item = branchesDir then filterItems rest
    else item :: filterItems rest

/-- The copy/exclude loop of `syncIn`: for each item, copy it from storage
into the working tree, then register it in the exclude list.  A failing
lookup or copy aborts with an error (`none`). -/
def syncInLoop (store : FsDir) : List String → FsDir → List String → Option (FsDir × List String)
  | [], work, excl => some (work, excl)
  | item :: rest, work, excl =>
    match findEntry item store with
    | none => none
    | some src =>
      match copyEntry src (findEntry item work) with
      | none => none
      | some e' => syncInLoop store rest (insertEntry item e' work) (addToExclude excl item)

/-- `syncIn` after branch-storage initialization: list the storage
entries, filter the bookkeeping names, copy the rest into the working
tree and register each in the exclude list. -/
def syncIn (store work : FsDir) (excl : List String) : Option (FsDir × List String) :=
  syncInLoop store (filterItems (listDir store)) work excl

/-- The copy loop of `syncOut`: items absent from the working tree are
silently skipped; the rest are copied into storage. -/
def syncOutCopy (work : FsDir) : List String → FsDir → Option FsDir
  | [], store => some store
  | item :: rest, store =>
    match findEntry item work with
    | none => syncOutCopy work rest store
    | some src =>
      match copyEntry src (findEntry item store) with
      | none => none
      | some e' => syncOutCopy work rest (insertEntry item e' store)

/-- The prune loop of `syncOut`: walk the storage listing and recursively
remove every entry that is not the deletion marker, not `branches`, and
not in the managed-entry list. -/
def syncOutPrune (items : List String) : List String → FsDir → FsDir
  | [], store => store
  | n :: rest, store =>
    if n = deletionMarker ∨ n = branchesDir then syncOutPrune items rest store
    else if n ∈ items then syncOutPrune items rest store
    else syncOutPrune items rest (eraseEntry n store)

/-- `syncOut`: read the managed entries, copy those present in the
working tree into storage, then prune stale storage entries. -/
def syncOut (store work : FsDir) (excl : List String) : Option FsDir :=
  let items := readExcludeFile excl work
  match syncOutCopy work items store with
  | none => none
  | some store1 => some (syncOutPrune items (listDir store1) store1)

/-! ### Storage Resolver -/

/-- The seeding loop of `initializeBranchStorage`: copy every base-storage
entry except `branches` and the deletion marker into the new location. -/
def initCopyLoop (base : FsDir) : List String → FsDir → Option FsDir
  | [], loc => some loc
  | item :: rest, loc =>
    if item = branchesDir ∨ item = deletionMarker then initCopyLoop base rest loc
    else
      match findEntry item base with
      | none => none
      | some src =>
        match copyEntry src (findEntry item loc) with
        | none => none
        | some e' => initCopyLoop base rest (insertEntry item e' loc)

/-- `initializeBranchStorage`: a no-op on the default branch or when the
resolved storage location already exists; otherwise create it and, when
the base storage root exists, seed it from the base root.  `none` for the
optional directories means "does not exist on disk"; the outer `Option`
is the error monad. -/
def initializeBranchStorage (currentBranch defaultBranch : String)
    (storeBase : Option FsDir) (storeLocation : Option FsDir) :
    Option (Option FsDir) :=
  if currentBranch = defaultBranch then some storeLocation
  else
    match storeLocation with
    | some d => some (some d)
    | none =>
      match storeBase with
      | none => some (some ([] : FsDir))
      | some base => (initCopyLoop base (listDir base) []).map some

/-! ### Retention Manager -/

/-- The grace period, in seconds (`7 * 24 * time.Hour`; `time.Now` is
modelled at whole-second granularity, at which the nanosecond `Duration`
comparison of the source coincides with the comparison in seconds). -/
def gracePeriodSeconds : Int := (deletionGraceDays : Int) * 24 * 60 * 60

/-- `os.Remove` on the marker path, errors ignored: removes a file or an
empty directory, leaves a non-empty directory in place. -/
def removeMarker (ch : FsDir) : FsDir :=
  match findEntry deletionMarker ch with
  | some (.file _ _) => eraseEntry deletionMarker ch
  | some (.dir _ []) => eraseEntry deletionMarker ch
  | _ => ch

/-- `os.ReadFile` on the marker path: the content when it is a regular
file, an error (`none`) otherwise. -/
def readMarkerFile (ch : FsDir) : Option String :=
  match findEntry deletionMarker ch with
  | some (.file c _) => some c
  | _ => none

/-- One iteration of the `cleanupDeletedBranches` scan, for the directory
entry `dirName ↦ e` under `branches/`.  The result is the entry after the
pass (`none` when the whole branch-storage directory was deleted). -/
def cleanupBranchEntry (currentBranch : String) (gitBranches : List String)
    (now : Int) (dirName : String) (e : Entry) : Option Entry :=
  match e with
  | .file c m => some (.file c m)
  | .dir m ch =>
    let branchName := unsanitizeBranchName dirName
    if branchName = currentBranch then some (.dir m ch)
    else if branchName ∈ gitBranches then some (.dir m (removeMarker ch))
    else
      match readMarkerFile ch with
      | some data =>
        match parseInt64 (trimSpace data) with
        | some ts =>
          if now - ts > gracePeriodSeconds then none else some (.dir m ch)
        | none => some (.dir m ch)
      | none =>
        match findEntry deletionMarker ch with
        | some (.dir _ _) => some (.dir m ch)
        | _ => some (.dir m (insertEntry deletionMarker (.file (toString now) 0o644) ch))

/-- `cleanupDeletedBranches`, as a transformation of the `branches/`
listing: every entry is processed independently; deleted branch
directories disappear from the listing. -/
def cleanupDeletedBranches (currentBranch : String) (gitBranches : List String)
    (now : Int) (branches : FsDir) : FsDir :=
  branches.filterMap (fun p =>
    (cleanupBranchEntry currentBranch gitBranches now p.1 p.2).map (fun e => (p.1, e)))

/-! ### `run` / `runClaude` control-flow skeleton -/

/-- Outcome of `exec.Command("claude", ...).Run()`: the process ran and
exited with a code, or it could not be started at all. -/
inductive ClaudeResult : Type where
  | exited (code : Nat)
  | startFailed

/-- `runClaude`: the wrapped program's exit code; `1` when it could not
be run. -/
def runClaude : ClaudeResult → Nat
  | .exited code => code
  | .startFailed => 1

/-- Observable outcome of one `run` invocation: the exit code it returns,
whether it returned an error, and which phases were reached. -/
structure RunOutcome where
  exitCode : Nat
  failed : Bool
  ranSyncOut : Bool
  ranCleanup : Bool

/-- The control-flow skeleton of `run`: pass-through outside a repo;
sync-in failure aborts; the wrapped program's exit code is captured;
sync-out always runs afterward; cleanup runs after a successful sync-out
(its own failure is only logged). -/
def run (inRepo : Bool) (syncInOk : Bool) (claudeRes : ClaudeResult)
    (syncOutOk : Bool) : RunOutcome :=
  if ¬inRepo then ⟨0, false, false, false⟩
  else if ¬syncInOk then ⟨0, true, false, false⟩
  else
    let claudeExit := runClaude claudeRes
    if ¬syncOutOk then ⟨claudeExit, true, true, false⟩
    else ⟨claudeExit, false, true, true⟩

/-- `main`: a non-nil error from `run` is fatal (`log.Fatalf` exits 1);
otherwise the process exits with the code `run` returned. -/
def mainExitCode (o : RunOutcome) : Nat := if o.failed then 1 else o.exitCode

/-! ### One sync-in / sync-out cycle ("no intervening edits") -/

/-- The filesystem state a session touches: the resolved storage
location's listing, the working-tree root's listing, and the exclude-file
lines. -/
structure SessionState where
  store : FsDir
  work : FsDir
  excl : List String

/-- One sync-in-then-sync-out cycle with no intervening edits (the
wrapped program changes nothing). -/
def cycle (s : SessionState) : Option SessionState :=
  match syncIn s.store s.work s.excl with
  | none => none
  | some (work1, excl1) =>
    match syncOut s.store work1 excl1 with
    | none => none
    | some store1 => some ⟨store1, work1, excl1⟩

/-- `N` consecutive cycles. -/
def cycleN : Nat → SessionState → Option SessionState
  | 0, s => some s
  | n + 1, s =>
    match cycle s with
    | none => none
    | some s' => cycleN n s'

/-- Proof-side characterization (not part of the source model): the
per-character encoding realised by `sanitizeBranchName`. -/
def encodeChar (a : Char) : List Char :=
  if a = '%' then ['%', '2', '5'] else if a = '/' then ['%', '2', 'F'] else [a]

/-- Proof-side characterization: the intermediate form after decoding
`%2F` but not yet `%25`. -/
def midChar (a : Char) : List Char :=
  if a = '%' then ['%', '2', '5'] else [a]

/-! ### Lemmas about `replaceAll` -/

theorem replaceAllAux_nil (old new : List Char) (fuel : Nat) :
    replaceAllAux fuel [] old new = [] := by
  cases fuel with
  | zero => rfl
  | succ f =>
    rw [replaceAllAux]
    rcases old with _ | ⟨o, os⟩ <;> simp [List.isPrefixOf]

theorem replaceAllAux_irrel (old new : List Char) :
    ∀ (f1 : Nat) (s : List Char), s.length ≤ f1 → ∀ (f2 : Nat), s.length ≤ f2 →
      replaceAllAux f1 s old new = replaceAllAux f2 s old new := by
  intro f1
  induction f1 with
  | zero =>
    intro s hs f2 _
    have : s = [] := List.length_eq_zero.mp (Nat.le_zero.mp hs)
    subst this
    rw [replaceAllAux_nil, replaceAllAux_nil]
  | succ f ih =>
    intro s hs f2 hs2
    rcases s with _ | ⟨c, rest⟩
    · rw [replaceAllAux_nil, replaceAllAux_nil]
    · rcases f2 with _ | f2'
      · simp at hs2
      · rw [replaceAllAux, replaceAllAux]
        by_cases hc : old ≠ [] ∧ old.isPrefixOf (c :: rest)
        · rw [if_pos hc, if_pos hc]
          have hol : 1 ≤ old.length := by
            rcases old with _ | _
            · exact absurd rfl hc.1
            · simp
          have hdl : ((c :: rest).drop old.length).length ≤ rest.length := by
            simp only [List.length_drop, List.length_cons]
            omega
          simp only [List.length_cons] at hs hs2
          rw [ih _ (by omega) f2' (by omega)]
        · rw [if_neg hc, if_neg hc]
          simp only [List.length_cons] at hs hs2
          rw [ih rest (by omega) f2' (by omega)]

theorem replaceAllAux_eq (old new : List Char) (fuel : Nat) (s : List Char)
    (h : s.length ≤ fuel) : replaceAllAux fuel s old new = replaceAll s old new :=
  replaceAllAux_irrel old new fuel s h s.length (le_refl _)

theorem replaceAll_nil (old new : List Char) : replaceAll [] old new = [] := rfl

theorem replaceAll_pos {s old : List Char} (new : List Char)
    (h1 : old ≠ []) (h2 : old.isPrefixOf s) :
    replaceAll s old new = new ++ replaceAll (s.drop old.length) old new := by
  have hol : 1 ≤ old.length := by
    rcases old with _ | _
    · exact absurd rfl h1
    · simp
  rcases hos : s with _ | ⟨c, rest⟩
  · subst hos
    exfalso
    have hp : old <+: ([] : List Char) := List.isPrefixOf_iff_prefix.mp h2
    have hl := hp.length_le
    simp only [List.length_nil, Nat.le_zero] at hl
    exact h1 (List.length_eq_zero.mp hl)
  · subst hos
    show replaceAllAux (rest.length + 1) (c :: rest) old new = _
    rw [replaceAllAux, if_pos ⟨h1, h2⟩]
    congr 1
    apply replaceAllAux_eq
    simp only [List.length_drop, List.length_cons]
    omega

theorem replaceAll_neg {c : Char} {s old : List Char} (new : List Char)
    (h : ¬ old.isPrefixOf (c :: s)) :
    replaceAll (c :: s) old new = c :: replaceAll s old new := by
  show replaceAllAux (s.length + 1) (c :: s) old new = _
  rw [replaceAllAux, if_neg (fun hc => h hc.2)]
  rw [replaceAllAux_eq old new s.length s (le_refl _)]

theorem flatMap_congr_on {α β : Type} (l : List α) (f g : α → List β)
    (h : ∀ a ∈ l, f a = g a) : l.flatMap f = l.flatMap g := by
  induction l with
  | nil => simp
  | cons a rest ih =>
    simp only [List.flatMap_cons]
    rw [h a (by simp), ih (fun b hb => h b (by simp [hb]))]

theorem replaceAll_single (c : Char) (new : List Char) :
    ∀ s : List Char, replaceAll s [c] new =
      s.flatMap (fun a => if a = c then new else [a]) := by
  intro s
  induction s with
  | nil => simp [replaceAll_nil]
  | cons a rest ih =>
    by_cases hac : a = c
    · subst hac
      rw [replaceAll_pos new (by simp) (by simp [List.isPrefixOf])]
      simp [ih]
    · rw [replaceAll_neg new
        (by simp only [List.isPrefixOf, Bool.and_eq_true, beq_iff_eq]
            exact fun h => hac h.1.symm)]
      simp [hac, ih]

theorem sanitize_data_eq (x : String) :
    (sanitizeBranchName x).data = x.data.flatMap encodeChar := by
  show replaceAll (replaceAll x.data ['%'] ['%', '2', '5']) ['/'] ['%', '2', 'F'] =
    x.data.flatMap encodeChar
  rw [replaceAll_single, replaceAll_single, List.flatMap_assoc]
  apply flatMap_congr_on
  intro a _
  by_cases h1 : a = '%'
  · subst h1; simp [encodeChar]
  · by_cases h2 : a = '/'
    · subst h2; simp [encodeChar]
    · simp [encodeChar, h1, h2]

theorem decode_slash (s : List Char) :
    replaceAll (s.flatMap encodeChar) ['%', '2', 'F'] ['/'] = s.flatMap midChar := by
  induction s with
  | nil => simp [replaceAll_nil]
  | cons a rest ih =>
    rw [List.flatMap_cons, List.flatMap_cons]
    by_cases h1 : a = '%'
    · subst h1
      rw [show encodeChar '%' = ['%', '2', '5'] from rfl,
        show midChar '%' = ['%', '2', '5'] from rfl]
      show replaceAll ('%' :: '2' :: '5' :: rest.flatMap encodeChar) _ _ = _
      rw [replaceAll_neg _ (by simp [List.isPrefixOf]),
        replaceAll_neg _ (by simp [List.isPrefixOf]),
        replaceAll_neg _ (by simp [List.isPrefixOf]), ih]
      rfl
    · by_cases h2 : a = '/'
      · subst h2
        rw [show encodeChar '/' = ['%', '2', 'F'] from rfl,
          show midChar '/' = ['/'] from rfl]
        show replaceAll ('%' :: '2' :: 'F' :: rest.flatMap encodeChar) _ _ = _
        rw [replaceAll_pos _ (by simp) (by simp [List.isPrefixOf])]
        simp [ih]
      · rw [show encodeChar a = [a] by simp [encodeChar, h1, h2],
          show midChar a = [a] by simp [midChar, h1]]
        show replaceAll (a :: rest.flatMap encodeChar) _ _ = _
        rw [replaceAll_neg _
          (by simp only [List.isPrefixOf, Bool.and_eq_true, beq_iff_eq]
              exact fun h => h1 h.1.symm), ih]
        rfl

theorem decode_percent (s : List Char) :
    replaceAll (s.flatMap midChar) ['%', '2', '5'] ['%'] = s := by
  induction s with
  | nil => simp [replaceAll_nil]
  | cons a rest ih =>
    rw [List.flatMap_cons]
    by_cases h1 : a = '%'
    · subst h1
      rw [show midChar '%' = ['%', '2', '5'] from rfl]
      show replaceAll ('%' :: '2' :: '5' :: rest.flatMap midChar) _ _ = _
      rw [replaceAll_pos _ (by simp) (by simp [List.isPrefixOf])]
      simp [ih]
    · rw [show midChar a = [a] by simp [midChar, h1]]
      show replaceAll (a :: rest.flatMap midChar) _ _ = _
      rw [replaceAll_neg _
        (by simp only [List.isPrefixOf, Bool.and_eq_true, beq_iff_eq]
            exact fun h => h1 h.1.symm), ih]

/-- **C4.** For every branch name `x` (in particular every one whose only
special characters are `/` and `%`), decoding after encoding is the
identity: `unsanitizeBranchName (sanitizeBranchName x) = x`, where
`sanitizeBranchName` replaces `%` by `%25` and then `/` by `%2F`, and
`unsanitizeBranchName` decodes `%2F` before `%25`. -/
theorem sanitize_unsanitize_roundtrip (x : String) :
    unsanitizeBranchName (sanitizeBranchName x) = x := by
  show String.mk
    (replaceAll (replaceAll (sanitizeBranchName x).data ['%', '2', 'F'] ['/'])
      ['%', '2', '5'] ['%']) = x
  rw [sanitize_data_eq, decode_slash, decode_percent]

/-! ### Retention Manager claims -/

/-- **C5.** For a non-live branch-storage directory whose deletion marker
holds a valid numeric timestamp, the retention pass deletes the whole
directory iff the marker's age strictly exceeds the 7-day grace period;
at exactly 7 days or younger the directory is kept unchanged. -/
theorem cleanup_grace_boundary (cur : String) (git : List String) (now : Int)
    (n : String) (m : Nat) (ch : FsDir) (content : String) (fm : Nat) (ts : Int)
    (hcur : unsanitizeBranchName n ≠ cur)
    (hlive : unsanitizeBranchName n ∉ git)
    (hmarker : findEntry deletionMarker ch = some (.file content fm))
    (hts : parseInt64 (trimSpace content) = some ts) :
    (cleanupBranchEntry cur git now n (.dir m ch) = none ↔
      now - ts > gracePeriodSeconds) ∧
    (now - ts ≤ gracePeriodSeconds →
      cleanupBranchEntry cur git now n (.dir m ch) = some (.dir m ch)) := by
  have hread : readMarkerFile ch = some content := by
    simp [readMarkerFile, hmarker]
  constructor
  · simp only [cleanupBranchEntry, hread, hts, if_neg hcur, if_neg hlive]
    by_cases hage : now - ts > gracePeriodSeconds
    · simp [hage]
    · simp [hage]
  · intro hage
    simp only [cleanupBranchEntry, hread, hts, if_neg hcur, if_neg hlive]
    rw [if_neg (by omega)]

/-- Witness for `cleanup_grace_boundary`: a marker exactly 7 days old
(kept) versus one a second older (directory deleted). -/
theorem cleanup_grace_boundary_witness :
    cleanupBranchEntry "main" [] 604800 "b"
      (.dir 493 [(deletionMarker, .file "0" 420)]) =
      some (.dir 493 [(deletionMarker, .file "0" 420)]) ∧
    cleanupBranchEntry "main" [] 604801 "b"
      (.dir 493 [(deletionMarker, .file "0" 420)]) = none := by
  constructor
  · exact (cleanup_grace_boundary "main" [] 604800 "b" 493
      [(deletionMarker, .file "0" 420)] "0" 420 0 (by decide) (by decide)
      (by rfl) (by rfl)).2 (by decide)
  · exact (cleanup_grace_boundary "main" [] 604801 "b" 493
      [(deletionMarker, .file "0" 420)] "0" 420 0 (by decide) (by decide)
      (by rfl) (by rfl)).1.mpr (by decide)

/-- **C6.** A branch-storage directory whose decoded name equals the
session's current branch is skipped entirely by the retention pass: it is
left in place and byte-identical (never deleted, never marked), and the
scan of the other entries proceeds around it. -/
theorem cleanup_skips_current (cur : String) (git : List String) (now : Int)
    (pre post : FsDir) (n : String) (e : Entry)
    (h : unsanitizeBranchName n = cur) :
    cleanupDeletedBranches cur git now (pre ++ (n, e) :: post) =
      cleanupDeletedBranches cur git now pre ++
        (n, e) :: cleanupDeletedBranches cur git now post := by
  have he : cleanupBranchEntry cur git now n e = some e := by
    cases e with
    | file c m => rfl
    | dir m ch => simp [cleanupBranchEntry, h]
  simp [cleanupDeletedBranches, List.filterMap_append, List.filterMap_cons, he]

/-- Witness for `cleanup_skips_current`: the current branch `feat/x`
(stored as `feat%2Fx`) is absent from the live set yet left untouched. -/
theorem cleanup_skips_current_witness :
    cleanupDeletedBranches "feat/x" [] 0
      ([] ++ ("feat%2Fx", Entry.dir 493 []) :: []) =
      cleanupDeletedBranches "feat/x" [] 0 [] ++
        ("feat%2Fx", Entry.dir 493 []) :: cleanupDeletedBranches "feat/x" [] 0 [] :=
  cleanup_skips_current "feat/x" [] 0 [] [] "feat%2Fx" (Entry.dir 493 []) (by rfl)

/-- **C7.** A non-live branch-storage directory whose deletion marker
exists but holds an unparsable timestamp is neither deleted nor
re-marked, and the scan continues over the surrounding entries. -/
theorem cleanup_malformed_marker (cur : String) (git : List String) (now : Int)
    (pre post : FsDir) (n : String) (m : Nat) (ch : FsDir) (content : String) (fm : Nat)
    (hlive : unsanitizeBranchName n ∉ git)
    (hmarker : findEntry deletionMarker ch = some (.file content fm))
    (hbad : parseInt64 (trimSpace content) = none) :
    cleanupDeletedBranches cur git now (pre ++ (n, .dir m ch) :: post) =
      cleanupDeletedBranches cur git now pre ++
        (n, .dir m ch) :: cleanupDeletedBranches cur git now post := by
  have hread : readMarkerFile ch = some content := by
    simp [readMarkerFile, hmarker]
  have he : cleanupBranchEntry cur git now n (.dir m ch) = some (.dir m ch) := by
    by_cases hcur : unsanitizeBranchName n = cur
    · simp [cleanupBranchEntry, hcur]
    · simp [cleanupBranchEntry, hcur, hlive, hread, hbad]
  simp [cleanupDeletedBranches, List.filterMap_append, List.filterMap_cons, he]

/-- Witness for `cleanup_malformed_marker`: a marker containing `"oops"`
leaves the branch directory untouched while its neighbours are still
scanned (the live neighbour keeps its storage, its marker removed). -/
theorem cleanup_malformed_marker_witness :
    cleanupDeletedBranches "main" ["other"] 9999999999
      ([("other", Entry.dir 493 [(deletionMarker, Entry.file "0" 420)])] ++
        ("b", Entry.dir 493 [(deletionMarker, Entry.file "oops" 420)]) :: []) =
      cleanupDeletedBranches "main" ["other"] 9999999999
        [("other", Entry.dir 493 [(deletionMarker, Entry.file "0" 420)])] ++
        ("b", Entry.dir 493 [(deletionMarker, Entry.file "oops" 420)]) ::
          cleanupDeletedBranches "main" ["other"] 9999999999 [] :=
  cleanup_malformed_marker "main" ["other"] 9999999999
    [("other", Entry.dir 493 [(deletionMarker, Entry.file "0" 420)])] []
    "b" 493 [(deletionMarker, Entry.file "oops" 420)] "oops" 420
    (by decide) (by rfl) (by rfl)

/-! ### Wrapped-program exit-code claim -/

/-- **C8.** A non-zero exit of the wrapped program is not a sync failure:
sync-out is still attempted (whatever its own outcome) while the captured
exit code is returned, the retention pass runs after a successful
sync-out, and the overall invocation then exits with the wrapped
program's original code. -/
theorem run_reports_claude_exit (code : Nat) (h : code ≠ 0) :
    (∀ syncOutOk : Bool,
      (run true true (.exited code) syncOutOk).ranSyncOut = true ∧
      (run true true (.exited code) syncOutOk).exitCode = code) ∧
    (run true true (.exited code) true).ranCleanup = true ∧
    (run true true (.exited code) true).failed = false ∧
    mainExitCode (run true true (.exited code) true) = code := by
  refine ⟨fun syncOutOk => ?_, by rfl, by rfl, by rfl⟩
  cases syncOutOk <;> exact ⟨rfl, rfl⟩

/-- Witness for `run_reports_claude_exit` at exit code 2. -/
theorem run_reports_claude_exit_witness :
    (run true true (.exited 2) true).ranSyncOut = true ∧
    (run true true (.exited 2) true).ranCleanup = true ∧
    mainExitCode (run true true (.exited 2) true) = 2 := by
  have h := run_reports_claude_exit 2 (by decide)
  exact ⟨(h.1 true).1, h.2.1, h.2.2.2⟩

/-! ### Induction principle for the nested `Entry` type -/

theorem entry_induct (P : Entry → Prop)
    (hfile : ∀ c m, P (.file c m))
    (hdir : ∀ m ch, (∀ p ∈ ch, P p.2) → P (.dir m ch)) :
    ∀ e, P e := by
  intro e
  refine @Entry.rec P (fun l => ∀ p ∈ l, P p.2) (fun p => P p.2)
    (fun c m => hfile c m)
    (fun m ch ih => hdir m ch ih)
    (fun p hp => absurd hp (List.not_mem_nil p))
    (fun head tail ihh iht => ?_)
    (fun a b hb => hb)
    e
  intro p hp
  rcases List.mem_cons.mp hp with rfl | ht
  · exact ihh
  · exact iht p ht

/-! ### Association-list lemmas for directory listings -/

theorem findEntry_eq_none {n : String} {d : FsDir} :
    findEntry n d = none ↔ n ∉ listDir d := by
  induction d with
  | nil => simp [findEntry, listDir]
  | cons p rest ih =>
    rcases p with ⟨m, e⟩
    by_cases hm : m = n
    · subst hm
      simp [findEntry, listDir]
    · simp [findEntry, hm, listDir, ih]
      intro h
      exact fun hc => hm hc.symm

theorem findEntry_isSome_iff {n : String} {d : FsDir} :
    (findEntry n d).isSome ↔ n ∈ listDir d := by
  constructor
  · intro h
    by_contra hn
    rw [findEntry_eq_none.mpr hn] at h
    simp at h
  · intro hn
    rcases h : findEntry n d with _ | v
    · exact absurd hn (findEntry_eq_none.mp h)
    · simp

theorem findEntry_mem {n : String} {d : FsDir} {v : Entry}
    (h : findEntry n d = some v) : (n, v) ∈ d := by
  induction d with
  | nil => simp [findEntry] at h
  | cons p rest ih =>
    rcases p with ⟨m, e⟩
    by_cases hm : m = n
    · subst hm
      simp [findEntry] at h
      simp [h]
    · simp [findEntry, hm] at h
      simp [ih h]

theorem findEntry_of_mem_nodup {n : String} {d : FsDir} {v : Entry}
    (hnd : (listDir d).Nodup) (h : (n, v) ∈ d) : findEntry n d = some v := by
  induction d with
  | nil => cases h
  | cons p rest ih =>
    rcases p with ⟨m, e⟩
    simp only [listDir, List.map_cons, List.nodup_cons] at hnd
    cases h with
    | head => simp [findEntry]
    | tail _ htail =>
      have hm : m ≠ n := by
        intro hmn
        exact hnd.1 (by
          rw [hmn]
          exact List.mem_map.mpr ⟨(n, v), htail, rfl⟩)
      simp [findEntry, hm]
      exact ih hnd.2 htail

theorem findEntry_insert_self (n : String) (v : Entry) (d : FsDir) :
    findEntry n (insertEntry n v d) = some v := by
  induction d with
  | nil => simp [insertEntry, findEntry]
  | cons p rest ih =>
    rcases p with ⟨m, e⟩
    by_cases hm : m = n
    · subst hm
      simp [insertEntry, findEntry]
    · simp [insertEntry, hm, findEntry, ih]

theorem findEntry_insert_ne {m n : String} (hmn : m ≠ n) (v : Entry) (d : FsDir) :
    findEntry m (insertEntry n v d) = findEntry m d := by
  induction d with
  | nil => simp [insertEntry, findEntry, Ne.symm hmn]
  | cons p rest ih =>
    rcases p with ⟨k, e⟩
    by_cases hk : k = n
    · subst hk
      simp [insertEntry, findEntry, Ne.symm hmn]
    · by_cases hkm : k = m
      · subst hkm
        simp [insertEntry, hk, findEntry]
      · simp [insertEntry, hk, findEntry, hkm, ih]

theorem listDir_insert (n : String) (v : Entry) (d : FsDir) :
    listDir (insertEntry n v d) =
      if n ∈ listDir d then listDir d else listDir d ++ [n] := by
  induction d with
  | nil => simp [insertEntry, listDir]
  | cons p rest ih =>
    rcases p with ⟨m, e⟩
    by_cases hm : m = n
    · subst hm
      simp [insertEntry, listDir]
    · simp only [insertEntry, if_neg hm, listDir, List.map_cons] at ih ⊢
      rw [ih]
      by_cases hn : n ∈ rest.map Prod.fst
      · simp [hn, Ne.symm hm]
      · simp [hn, Ne.symm hm]

theorem insertEntry_of_find {n : String} {d : FsDir} {v : Entry}
    (h : findEntry n d = some v) : insertEntry n v d = d := by
  induction d with
  | nil => simp [findEntry] at h
  | cons p rest ih =>
    rcases p with ⟨m, e⟩
    by_cases hm : m = n
    · subst hm
      simp [findEntry] at h
      simp [insertEntry, h]
    · simp [findEntry, hm] at h
      simp [insertEntry, hm, ih h]

theorem nodup_listDir_insert {n : String} {v : Entry} {d : FsDir}
    (h : (listDir d).Nodup) : (listDir (insertEntry n v d)).Nodup := by
  rw [listDir_insert]
  by_cases hn : n ∈ listDir d
  · simpa [hn]
  · simp only [if_neg hn]
    exact List.Nodup.append h (by simp) (by simpa [List.disjoint_singleton])

theorem mem_insertEntry {n : String} {v : Entry} {d : FsDir} {p : String × Entry}
    (h : p ∈ insertEntry n v d) : p = (n, v) ∨ p ∈ d := by
  induction d with
  | nil => simpa [insertEntry] using h
  | cons q rest ih =>
    rcases q with ⟨m, e⟩
    by_cases hm : m = n
    · rw [show insertEntry n v ((m, e) :: rest) = (n, v) :: rest by
        simp [insertEntry, hm], List.mem_cons] at h
      rcases h with h | h
      · exact Or.inl h
      · exact Or.inr (List.mem_cons_of_mem _ h)
    · rw [show insertEntry n v ((m, e) :: rest) = (m, e) :: insertEntry n v rest by
        simp [insertEntry, hm], List.mem_cons] at h
      rcases h with h | h
      · exact Or.inr (by simp [h])
      · rcases ih h with h' | h'
        · exact Or.inl h'
        · exact Or.inr (List.mem_cons_of_mem _ h')

theorem eraseEntry_sublist (n : String) (d : FsDir) :
    List.Sublist (eraseEntry n d) d := by
  induction d with
  | nil => simp [eraseEntry]
  | cons p rest ih =>
    rcases p with ⟨m, e⟩
    by_cases hm : m = n
    · simp only [eraseEntry, if_pos hm]
      exact List.sublist_cons_self _ _
    · simp only [eraseEntry, if_neg hm]
      exact ih.cons₂ _

theorem findEntry_erase_ne {m n : String} (hmn : m ≠ n) (d : FsDir) :
    findEntry m (eraseEntry n d) = findEntry m d := by
  induction d with
  | nil => simp [eraseEntry]
  | cons p rest ih =>
    rcases p with ⟨k, e⟩
    by_cases hk : k = n
    · subst hk
      simp [eraseEntry, findEntry, Ne.symm hmn]
    · by_cases hkm : k = m
      · subst hkm
        simp [eraseEntry, hk, findEntry]
      · simp [eraseEntry, hk, findEntry, hkm, ih]

theorem findEntry_erase_self {n : String} {d : FsDir}
    (hnd : (listDir d).Nodup) : findEntry n (eraseEntry n d) = none := by
  induction d with
  | nil => simp [eraseEntry, findEntry]
  | cons p rest ih =>
    rcases p with ⟨m, e⟩
    simp only [listDir, List.map_cons, List.nodup_cons] at hnd
    by_cases hm : m = n
    · subst hm
      simp only [eraseEntry, if_pos rfl]
      exact findEntry_eq_none.mpr (by simpa [listDir] using hnd.1)
    · simp [eraseEntry, hm, findEntry, ih hnd.2]

theorem insertEntry_append {n : String} {d : FsDir} (v : Entry)
    (h : n ∉ listDir d) : insertEntry n v d = d ++ [(n, v)] := by
  induction d with
  | nil => rfl
  | cons p rest ih =>
    rcases p with ⟨m, e⟩
    simp only [listDir, List.map_cons, List.mem_cons] at h
    push_neg at h
    rw [insertEntry, if_neg (Ne.symm h.1), ih (by simpa [listDir] using h.2)]
    rfl

/-! ### Characterization of `copyDir`'s merge behaviour -/

theorem copyEntry_file_none (c : String) (m : Nat) :
    copyEntry (.file c m) none = some (.file c m) := rfl

theorem copyEntry_file_file (c : String) (m : Nat) (c' : String) (m' : Nat) :
    copyEntry (.file c m) (some (.file c' m')) = some (.file c m) := rfl

theorem copyEntry_file_dir (c : String) (m m0 : Nat) (ch0 : FsDir) :
    copyEntry (.file c m) (some (.dir m0 ch0)) = none := rfl

theorem copyEntry_dir_none (m : Nat) (ch : FsDir) :
    copyEntry (.dir m ch) none = (copyChildren ch []).map (.dir m) := rfl

theorem copyEntry_dir_file (m : Nat) (ch : FsDir) (c' : String) (m' : Nat) :
    copyEntry (.dir m ch) (some (.file c' m')) = none := rfl

theorem copyEntry_dir_dir (m : Nat) (ch : FsDir) (m0 : Nat) (ch0 : FsDir) :
    copyEntry (.dir m ch) (some (.dir m0 ch0)) = (copyChildren ch ch0).map (.dir m0) := rfl

theorem copyChildren_nil_src (dst : FsDir) : copyChildren [] dst = some dst := rfl

theorem copyChildren_cons_inv {m : String} {e : Entry} {rest : List (String × Entry)}
    {dst out : FsDir} (h : copyChildren ((m, e) :: rest) dst = some out) :
    ∃ r, copyEntry e (findEntry m dst) = some r ∧
      copyChildren rest (insertEntry m r dst) = some out := by
  rcases hc : copyEntry e (findEntry m dst) with _ | r
  · rw [copyChildren, hc] at h
    exact absurd h (by simp)
  · rw [copyChildren, hc] at h
    exact ⟨r, rfl, h⟩

theorem copyChildren_find_not_mem {ch : List (String × Entry)} :
    ∀ {dst out : FsDir}, copyChildren ch dst = some out →
      ∀ n, n ∉ listDir ch → findEntry n out = findEntry n dst := by
  induction ch with
  | nil =>
    intro dst out h n _
    rw [copyChildren_nil_src] at h
    cases h
    rfl
  | cons p rest ih =>
    intro dst out h n hn
    rcases p with ⟨m, e⟩
    rcases copyChildren_cons_inv h with ⟨r, _, hrest⟩
    simp only [listDir, List.map_cons, List.mem_cons] at hn
    push_neg at hn
    rw [ih hrest n (by simpa [listDir] using hn.2),
      findEntry_insert_ne hn.1 r dst]

theorem copyChildren_find_mem {ch : List (String × Entry)} :
    ∀ {dst out : FsDir}, (listDir ch).Nodup → copyChildren ch dst = some out →
      ∀ {n : String} {e : Entry}, findEntry n ch = some e →
        ∃ r, copyEntry e (findEntry n dst) = some r ∧ findEntry n out = some r := by
  induction ch with
  | nil =>
    intro dst out _ _ n e hfind
    simp [findEntry] at hfind
  | cons p rest ih =>
    intro dst out hnd h n e hfind
    rcases p with ⟨m, e0⟩
    rcases copyChildren_cons_inv h with ⟨r0, hc0, hrest⟩
    simp only [listDir, List.map_cons, List.nodup_cons] at hnd
    by_cases hm : m = n
    · subst hm
      simp only [findEntry, if_pos rfl] at hfind
      cases hfind
      refine ⟨r0, hc0, ?_⟩
      rw [copyChildren_find_not_mem hrest m (by simpa [listDir] using hnd.1),
        findEntry_insert_self]
    · simp only [findEntry, if_neg hm] at hfind
      rcases ih hnd.2 hrest hfind with ⟨r, hcr, hfr⟩
      exact ⟨r, by rwa [findEntry_insert_ne (Ne.symm hm) r0 dst] at hcr, hfr⟩

theorem copyChildren_nodup {ch : List (String × Entry)} :
    ∀ {dst out : FsDir}, (listDir dst).Nodup → copyChildren ch dst = some out →
      (listDir out).Nodup := by
  induction ch with
  | nil =>
    intro dst out hnd h
    rw [copyChildren_nil_src] at h
    cases h
    exact hnd
  | cons p rest ih =>
    intro dst out hnd h
    rcases p with ⟨m, e⟩
    rcases copyChildren_cons_inv h with ⟨r, _, hrest⟩
    exact ih (nodup_listDir_insert hnd) hrest

theorem mem_listDir_copyChildren {ch : List (String × Entry)} {dst out : FsDir}
    (hnd : (listDir ch).Nodup) (h : copyChildren ch dst = some out) (n : String) :
    n ∈ listDir out ↔ n ∈ listDir dst ∨ n ∈ listDir ch := by
  by_cases hc : n ∈ listDir ch
  · simp only [hc, or_true, iff_true]
    have hs : (findEntry n ch).isSome := findEntry_isSome_iff.mpr hc
    rcases hfe : findEntry n ch with _ | e
    · rw [hfe] at hs; simp at hs
    · rcases copyChildren_find_mem hnd h hfe with ⟨r, _, hfr⟩
      exact findEntry_isSome_iff.mp (by simp [hfr])
  · rw [← findEntry_isSome_iff, copyChildren_find_not_mem h n hc,
      findEntry_isSome_iff]
    simp [hc]

theorem copyChildren_append {ch : List (String × Entry)} :
    ∀ {acc : FsDir}, (∀ p ∈ ch, copyEntry p.2 none = some p.2) →
      (listDir ch).Nodup → (∀ n ∈ listDir ch, n ∉ listDir acc) →
      copyChildren ch acc = some (acc ++ ch) := by
  induction ch with
  | nil =>
    intro acc _ _ _
    simp [copyChildren_nil_src]
  | cons p rest ih =>
    rcases p with ⟨n, e⟩
    intro acc hpt hnd hdisj
    have hna : n ∉ listDir acc := hdisj n (by simp [listDir])
    have hfa : findEntry n acc = none := findEntry_eq_none.mpr hna
    have hce : copyEntry e none = some e := hpt (n, e) (by simp)
    simp only [listDir, List.map_cons, List.nodup_cons] at hnd
    have hstep : copyChildren ((n, e) :: rest) acc =
        copyChildren rest (insertEntry n e acc) := by
      rw [copyChildren, hfa, hce]
    rw [hstep, insertEntry_append e hna]
    have hdisj2 : ∀ k ∈ listDir rest, k ∉ listDir (acc ++ [(n, e)]) := by
      intro k hk hmem
      simp only [listDir, List.map_append, List.mem_append, List.map_cons,
        List.map_nil, List.mem_singleton] at hmem
      rcases hmem with hmem | hmem
      · refine hdisj k ?_ (by simpa [listDir] using hmem)
        simp only [listDir, List.map_cons, List.mem_cons]
        exact Or.inr (by simpa [listDir] using hk)
      · subst hmem
        exact hnd.1 (by simpa [listDir] using hk)
    rw [ih (fun q hq => hpt q (by simp [hq])) hnd.2 hdisj2]
    simp

theorem copy_none_id : ∀ e, WF e → copyEntry e none = some e := by
  intro e
  induction e using entry_induct with
  | hfile c m => intro _; rfl
  | hdir m ch ih =>
    intro hwf
    cases hwf with
    | dir _ _ hnd hch =>
      rw [copyEntry_dir_none,
        copyChildren_append (fun p hp => ih p hp (hch p hp)) hnd (by simp [listDir])]
      rfl

theorem copyEntry_file_inv {c : String} {m : Nat} {b : Option Entry} {w : Entry}
    (h : copyEntry (.file c m) b = some w) :
    w = .file c m := by
  match b with
  | none => rw [copyEntry_file_none] at h; exact (Option.some.inj h).symm
  | some (.file c' m') => rw [copyEntry_file_file] at h; exact (Option.some.inj h).symm
  | some (.dir m0 ch0) => rw [copyEntry_file_dir] at h; cases h

theorem copyEntry_dir_inv {m : Nat} {ch : FsDir} {b : Option Entry} {w : Entry}
    (h : copyEntry (.dir m ch) b = some w) :
    (∃ chw, b = none ∧ copyChildren ch [] = some chw ∧ w = .dir m chw) ∨
    (∃ m0 ch0 chw, b = some (.dir m0 ch0) ∧ copyChildren ch ch0 = some chw ∧
      w = .dir m0 chw) := by
  match b with
  | none =>
    rw [copyEntry_dir_none] at h
    rcases hcc : copyChildren ch [] with _ | chw
    · rw [hcc] at h; cases h
    · rw [hcc] at h
      exact Or.inl ⟨chw, rfl, rfl, (Option.some.inj h).symm⟩
  | some (.file c' m') => rw [copyEntry_dir_file] at h; cases h
  | some (.dir m0 ch0) =>
    rw [copyEntry_dir_dir] at h
    rcases hcc : copyChildren ch ch0 with _ | chw
    · rw [hcc] at h; cases h
    · rw [hcc] at h
      exact Or.inr ⟨m0, ch0, chw, rfl, hcc, (Option.some.inj h).symm⟩

theorem copyChildren_WF_values {ch : List (String × Entry)} {dst out : FsDir}
    (ihch : ∀ p ∈ ch, WF p.2 ∧ ∀ b r, (∀ eb, b = some eb → WF eb) →
      copyEntry p.2 b = some r → WF r)
    (hnd : (listDir ch).Nodup)
    (hnddst : (listDir dst).Nodup) (hWFdst : ∀ p ∈ dst, WF p.2)
    (h : copyChildren ch dst = some out) : ∀ p ∈ out, WF p.2 := by
  intro p hp
  have hndout := copyChildren_nodup hnddst h
  have hfp : findEntry p.1 out = some p.2 := findEntry_of_mem_nodup hndout hp
  by_cases hc : p.1 ∈ listDir ch
  · rcases hfe : findEntry p.1 ch with _ | e
    · exact absurd hc (findEntry_eq_none.mp hfe)
    · rcases copyChildren_find_mem hnd h hfe with ⟨r, hcr, hfr⟩
      have hpr : p.2 = r := by rw [hfp] at hfr; exact Option.some.inj hfr
      rw [hpr]
      exact (ihch (p.1, e) (findEntry_mem hfe)).2 (findEntry p.1 dst) r
        (fun eb heb => hWFdst (p.1, eb) (findEntry_mem heb)) hcr
  · rw [copyChildren_find_not_mem h p.1 hc] at hfp
    exact hWFdst (p.1, p.2) (findEntry_mem hfp)

theorem copy_WF : ∀ a, WF a → ∀ b w, (∀ eb, b = some eb → WF eb) →
    copyEntry a b = some w → WF w := by
  intro a
  induction a using entry_induct with
  | hfile c m =>
    intro _ b w _ h
    rw [copyEntry_file_inv h]
    exact WF.file c m
  | hdir m ch ih =>
    intro hwf b w hb h
    cases hwf with
    | dir _ _ hnd hch =>
      rcases copyEntry_dir_inv h with ⟨chw, rfl, hcc, rfl⟩ | ⟨m0, ch0, chw, rfl, hcc, rfl⟩
      · refine WF.dir m chw (copyChildren_nodup (by simp [listDir]) hcc) ?_
        exact copyChildren_WF_values
          (fun p hp => ⟨hch p hp, fun b r hbr hr => ih p hp (hch p hp) b r hbr hr⟩)
          hnd (by simp [listDir]) (by simp) hcc
      · have hwb := hb (.dir m0 ch0) rfl
        cases hwb with
        | dir _ _ hnd0 hch0 =>
          refine WF.dir m0 chw (copyChildren_nodup hnd0 hcc) ?_
          exact copyChildren_WF_values
            (fun p hp => ⟨hch p hp, fun b r hbr hr => ih p hp (hch p hp) b r hbr hr⟩)
            hnd hnd0 hch0 hcc

theorem copyChildren_noop {ch : List (String × Entry)} {dst : FsDir}
    (h : ∀ p ∈ ch, ∃ r, findEntry p.1 dst = some r ∧ copyEntry p.2 (some r) = some r) :
    copyChildren ch dst = some dst := by
  induction ch with
  | nil => exact copyChildren_nil_src dst
  | cons p rest ih =>
    rcases p with ⟨n, e⟩
    rcases h (n, e) (by simp) with ⟨r, hf, hcr⟩
    have hstep : copyChildren ((n, e) :: rest) dst =
        copyChildren rest (insertEntry n r dst) := by
      rw [copyChildren, hf, hcr]
    rw [hstep, insertEntry_of_find hf]
    exact ih (fun q hq => h q (by simp [hq]))

theorem copy_absorb : ∀ a, WF a → ∀ b w, copyEntry a b = some w →
    copyEntry a (some w) = some w := by
  intro a
  induction a using entry_induct with
  | hfile c m =>
    intro _ b w h
    rw [copyEntry_file_inv h]
    exact copyEntry_file_file c m c m
  | hdir m ch ih =>
    intro hwf b w h
    cases hwf with
    | dir _ _ hnd hch =>
      rcases copyEntry_dir_inv h with ⟨chw, rfl, hcc, rfl⟩ | ⟨m0, ch0, chw, rfl, hcc, rfl⟩
      · rw [copyEntry_dir_dir]
        rw [copyChildren_noop ?_]
        · rfl
        · intro p hp
          have hfe : findEntry p.1 ch = some p.2 := findEntry_of_mem_nodup hnd hp
          rcases copyChildren_find_mem hnd hcc hfe with ⟨r, hcr, hfr⟩
          exact ⟨r, hfr, ih p hp (hch p hp) _ r hcr⟩
      · rw [copyEntry_dir_dir]
        rw [copyChildren_noop ?_]
        · rfl
        · intro p hp
          have hfe : findEntry p.1 ch = some p.2 := findEntry_of_mem_nodup hnd hp
          rcases copyChildren_find_mem hnd hcc hfe with ⟨r, hcr, hfr⟩
          exact ⟨r, hfr, ih p hp (hch p hp) _ r hcr⟩

theorem copy_self (a : Entry) (h : WF a) : copyEntry a (some a) = some a :=
  copy_absorb a h none a (copy_none_id a h)

theorem children_round {cha chb chw chs : FsDir}
    (hndA : (listDir cha).Nodup) (hWA : ∀ p ∈ cha, WF p.2)
    (hndB : (listDir chb).Nodup) (hWB : ∀ p ∈ chb, WF p.2)
    (ih : ∀ p ∈ cha, ∀ b w s, (∀ eb, b = some eb → WF eb) →
      copyEntry p.2 b = some w → copyEntry w (some p.2) = some s →
      copyEntry s (some w) = some w ∧ copyEntry w (some s) = some s)
    (h1 : copyChildren cha chb = some chw) (h2 : copyChildren chw cha = some chs) :
    copyChildren chs chw = some chw ∧ copyChildren chw chs = some chs := by
  have hndW : (listDir chw).Nodup := copyChildren_nodup hndB h1
  have hndS : (listDir chs).Nodup := copyChildren_nodup hndA h2
  have hWFW : ∀ p ∈ chw, WF p.2 := copyChildren_WF_values
    (fun p hp => ⟨hWA p hp, fun b r hb hr => copy_WF p.2 (hWA p hp) b r hb hr⟩)
    hndA hndB hWB h1
  have hmemW : ∀ n, n ∈ listDir chw ↔ n ∈ listDir chb ∨ n ∈ listDir cha :=
    mem_listDir_copyChildren hndA h1
  have hmemS : ∀ n, n ∈ listDir chs ↔ n ∈ listDir cha ∨ n ∈ listDir chw :=
    mem_listDir_copyChildren hndW h2
  constructor
  · apply copyChildren_noop
    intro p hp
    have hfs : findEntry p.1 chs = some p.2 := findEntry_of_mem_nodup hndS hp
    have hnw : p.1 ∈ listDir chw := by
      rcases (hmemS p.1).mp (findEntry_isSome_iff.mp (by simp [hfs])) with h' | h'
      · exact (hmemW p.1).mpr (Or.inr h')
      · exact h'
    rcases hfw : findEntry p.1 chw with _ | wv
    · exact absurd hnw (findEntry_eq_none.mp hfw)
    refine ⟨wv, rfl, ?_⟩
    rcases copyChildren_find_mem hndW h2 hfw with ⟨r', hcr', hfr'⟩
    have hrp : p.2 = r' := by rw [hfs] at hfr'; exact Option.some.inj hfr'
    rcases hfa : findEntry p.1 cha with _ | ea
    · rw [hfa] at hcr'
      have hWFwv : WF wv := hWFW (p.1, wv) (findEntry_mem hfw)
      have hwv : wv = r' := by
        rw [copy_none_id wv hWFwv] at hcr'
        exact Option.some.inj hcr'
      rw [hrp, ← hwv]
      exact copy_self wv hWFwv
    · rw [hfa] at hcr'
      rcases copyChildren_find_mem hndA h1 hfa with ⟨w', hcw', hfw'⟩
      have hww : wv = w' := by rw [hfw] at hfw'; exact Option.some.inj hfw'
      rw [← hww] at hcw'
      have hWFb : ∀ eb, findEntry p.1 chb = some eb → WF eb :=
        fun eb heb => hWB (p.1, eb) (findEntry_mem heb)
      have hround := ih (p.1, ea) (findEntry_mem hfa) (findEntry p.1 chb) wv r'
        hWFb hcw' hcr'
      rw [hrp]
      exact hround.1
  · apply copyChildren_noop
    intro p hp
    have hfw : findEntry p.1 chw = some p.2 := findEntry_of_mem_nodup hndW hp
    have hns : p.1 ∈ listDir chs :=
      (hmemS p.1).mpr (Or.inr (findEntry_isSome_iff.mp (by simp [hfw])))
    rcases hfs : findEntry p.1 chs with _ | es
    · exact absurd hns (findEntry_eq_none.mp hfs)
    refine ⟨es, rfl, ?_⟩
    rcases copyChildren_find_mem hndW h2 hfw with ⟨r', hcr', hfr'⟩
    have hre : es = r' := by rw [hfs] at hfr'; exact Option.some.inj hfr'
    rcases hfa : findEntry p.1 cha with _ | ea
    · rw [hfa] at hcr'
      have hWFp : WF p.2 := hWFW p hp
      have hpr : p.2 = r' := by
        rw [copy_none_id p.2 hWFp] at hcr'
        exact Option.some.inj hcr'
      rw [hre, ← hpr]
      exact copy_self p.2 hWFp
    · rw [hfa] at hcr'
      rcases copyChildren_find_mem hndA h1 hfa with ⟨w', hcw', hfw'⟩
      have hwp : p.2 = w' := by rw [hfw] at hfw'; exact Option.some.inj hfw'
      rw [← hwp] at hcw'
      have hWFb : ∀ eb, findEntry p.1 chb = some eb → WF eb :=
        fun eb heb => hWB (p.1, eb) (findEntry_mem heb)
      have hround := ih (p.1, ea) (findEntry_mem hfa) (findEntry p.1 chb) p.2 r'
        hWFb hcw' hcr'
      rw [hre]
      exact hround.2

theorem copy_round : ∀ a, WF a → ∀ b w s, (∀ eb, b = some eb → WF eb) →
    copyEntry a b = some w → copyEntry w (some a) = some s →
    copyEntry s (some w) = some w ∧ copyEntry w (some s) = some s := by
  intro a
  induction a using entry_induct with
  | hfile c m =>
    intro _ b w s _ h1 h2
    rcases copyEntry_file_inv h1 with rfl
    rw [copyEntry_file_file] at h2
    cases h2
    exact ⟨copyEntry_file_file c m c m, copyEntry_file_file c m c m⟩
  | hdir ma cha ih =>
    intro hwf b w s hb h1 h2
    cases hwf with
    | dir _ _ hndA hWA =>
      rcases copyEntry_dir_inv h1 with ⟨chw, rfl, hcc1, rfl⟩ |
        ⟨mb, chb, chw, rfl, hcc1, rfl⟩
      · rw [copyEntry_dir_dir] at h2
        rcases hcc2 : copyChildren chw cha with _ | chs
        · rw [hcc2] at h2; cases h2
        · rw [hcc2] at h2
          have hs : s = .dir ma chs := (Option.some.inj h2).symm
          subst hs
          have hcr := children_round hndA hWA (by simp [listDir]) (by simp)
            (fun p hp => ih p hp (hWA p hp)) hcc1 hcc2
          constructor
          · rw [copyEntry_dir_dir, hcr.1]; rfl
          · rw [copyEntry_dir_dir, hcr.2]; rfl
      · rw [copyEntry_dir_dir] at h2
        rcases hcc2 : copyChildren chw cha with _ | chs
        · rw [hcc2] at h2; cases h2
        · rw [hcc2] at h2
          have hs : s = .dir ma chs := (Option.some.inj h2).symm
          subst hs
          have hwb := hb (.dir mb chb) rfl
          cases hwb with
          | dir _ _ hndB hWB =>
            have hcr := children_round hndA hWA hndB hWB
              (fun p hp => ih p hp (hWA p hp)) hcc1 hcc2
            constructor
            · rw [copyEntry_dir_dir, hcr.1]; rfl
            · rw [copyEntry_dir_dir, hcr.2]; rfl

/-! ### Lemmas about `filterItems`, the exclude list, and `syncIn` -/

theorem mem_listDir_insert {n' n : String} {v : Entry} {d : FsDir} :
    n' ∈ listDir (insertEntry n v d) ↔ n' ∈ listDir d ∨ n' = n := by
  rw [listDir_insert]
  by_cases hn : n ∈ listDir d
  · simp only [if_pos hn]
    constructor
    · exact Or.inl
    · rintro (h | rfl)
      · exact h
      · exact hn
  · simp [if_neg hn]

theorem filterItems_eq_filter (l : List String) :
    filterItems l =
      l.filter (fun n => decide (¬(n = deletionMarker ∨ n = branchesDir))) := by
  induction l with
  | nil => rfl
  | cons x rest ih =>
    by_cases hx : x = deletionMarker ∨ x = branchesDir
    · rw [filterItems, if_pos hx, ih, List.filter_cons]
      simp [hx]
    · rw [filterItems, if_neg hx, ih, List.filter_cons]
      simp [hx]

theorem mem_filterItems {n : String} {l : List String} :
    n ∈ filterItems l ↔ n ∈ l ∧ ¬(n = deletionMarker ∨ n = branchesDir) := by
  rw [filterItems_eq_filter, List.mem_filter]
  simp

theorem nodup_filterItems {l : List String} (h : l.Nodup) : (filterItems l).Nodup := by
  rw [filterItems_eq_filter]
  exact h.filter _

theorem addToExclude_found {lines : List String} {item : String}
    (h : ∃ l ∈ lines, trimSpace l = item) : addToExclude lines item = lines := by
  rcases h with ⟨l, hl, heq⟩
  rw [addToExclude, if_pos]
  exact List.any_eq_true.mpr ⟨l, hl, beq_iff_eq.mpr heq⟩

theorem mem_addToExclude {lines : List String} {item l : String}
    (h : l ∈ addToExclude lines item) : l ∈ lines ∨ l = item := by
  rw [addToExclude] at h
  by_cases hf : lines.any (fun l => trimSpace l == item)
  · rw [if_pos hf] at h
    exact Or.inl h
  · rw [if_neg hf] at h
    simpa using h

theorem subset_addToExclude {lines : List String} {item l : String}
    (h : l ∈ lines) : l ∈ addToExclude lines item := by
  rw [addToExclude]
  by_cases hf : lines.any (fun l => trimSpace l == item)
  · rwa [if_pos hf]
  · rw [if_neg hf]
    exact List.mem_append_left _ h

theorem mem_foldl_addToExclude :
    ∀ {items : List String} {lines : List String} {l : String},
      l ∈ items.foldl addToExclude lines → l ∈ lines ∨ l ∈ items := by
  intro items
  induction items with
  | nil => intro lines l h; exact Or.inl h
  | cons i rest ih =>
    intro lines l h
    rw [List.foldl_cons] at h
    rcases ih h with h' | h'
    · rcases mem_addToExclude h' with h'' | h''
      · exact Or.inl h''
      · exact Or.inr (by simp [h''])
    · exact Or.inr (by simp [h'])

theorem subset_foldl_addToExclude :
    ∀ {items : List String} {lines : List String} {l : String},
      l ∈ lines → l ∈ items.foldl addToExclude lines := by
  intro items
  induction items with
  | nil => intro lines l h; exact h
  | cons i rest ih =>
    intro lines l h
    rw [List.foldl_cons]
    exact ih (subset_addToExclude h)

theorem readExcludeFile_mem {lines : List String} {work : FsDir} {n : String}
    (h : n ∈ readExcludeFile lines work) :
    (findEntry n work).isSome ∧ ∃ raw ∈ lines, trimSlashSuffix (trimSpace raw) = n := by
  rw [readExcludeFile, List.mem_filterMap] at h
  rcases h with ⟨raw, hraw, hf⟩
  by_cases h1 : trimSpace raw = ""
  · rw [if_pos h1] at hf; cases hf
  · rw [if_neg h1] at hf
    by_cases h2 : startsWithHash (trimSpace raw) = true
    · simp only [h2, if_true] at hf; cases hf
    · simp only [h2, if_false, Bool.false_eq_true] at hf
      by_cases h3 : containsGlob (trimSpace raw) = true
      · simp only [h3, if_true] at hf; cases hf
      · simp only [h3, if_false, Bool.false_eq_true] at hf
        by_cases h4 : (findEntry (trimSlashSuffix (trimSpace raw)) work).isSome = true
        · rw [if_pos h4] at hf
          cases hf
          exact ⟨h4, raw, hraw, rfl⟩
        · rw [if_neg h4] at hf; cases hf

theorem syncInLoop_cons_inv {store : FsDir} {i : String} {rest : List String}
    {work : FsDir} {excl : List String} {work' : FsDir} {excl' : List String}
    (h : syncInLoop store (i :: rest) work excl = some (work', excl')) :
    ∃ src r, findEntry i store = some src ∧
      copyEntry src (findEntry i work) = some r ∧
      syncInLoop store rest (insertEntry i r work) (addToExclude excl i) =
        some (work', excl') := by
  rcases hs : findEntry i store with _ | src
  · rw [syncInLoop, hs] at h; cases h
  · rw [syncInLoop, hs] at h
    have h2 : (match copyEntry src (findEntry i work) with
      | none => none
      | some e' =>
        syncInLoop store rest (insertEntry i e' work) (addToExclude excl i)) =
        some (work', excl') := h
    rcases hc : copyEntry src (findEntry i work) with _ | r
    · rw [hc] at h2; cases h2
    · rw [hc] at h2
      exact ⟨src, r, rfl, hc, h2⟩

theorem syncInLoop_char {store : FsDir} (hndS : (listDir store).Nodup)
    (hWS : ∀ p ∈ store, WF p.2) :
    ∀ {items : List String} {work : FsDir} {excl : List String}
      {work' : FsDir} {excl' : List String},
      items.Nodup → (∀ i ∈ items, i ∈ listDir store) →
      (listDir work).Nodup → (∀ p ∈ work, WF p.2) →
      syncInLoop store items work excl = some (work', excl') →
      excl' = items.foldl addToExclude excl ∧
      (∀ n, n ∉ items → findEntry n work' = findEntry n work) ∧
      (∀ n e, n ∈ items → findEntry n store = some e →
        ∃ r, copyEntry e (findEntry n work) = some r ∧ findEntry n work' = some r) ∧
      (∀ n, n ∈ listDir work' ↔ n ∈ listDir work ∨ n ∈ items) ∧
      (listDir work').Nodup ∧ (∀ p ∈ work', WF p.2) := by
  intro items
  induction items with
  | nil =>
    intro work excl work' excl' _ _ hndW hWW h
    rw [show syncInLoop store [] work excl = some (work, excl) from rfl] at h
    cases h
    exact ⟨rfl, fun n _ => rfl, fun n e hn => absurd hn (List.not_mem_nil n),
      fun n => by simp, hndW, hWW⟩
  | cons i rest ih =>
    intro work excl work' excl' hnd hmem hndW hWW h
    rcases syncInLoop_cons_inv h with ⟨src, r, hsrc, hcopy, hrec⟩
    simp only [List.nodup_cons] at hnd
    have hWFr : WF r :=
      copy_WF src (hWS (i, src) (findEntry_mem hsrc)) (findEntry i work) r
        (fun eb heb => hWW (i, eb) (findEntry_mem heb)) hcopy
    have hWW2 : ∀ p ∈ insertEntry i r work, WF p.2 := by
      intro p hp
      rcases mem_insertEntry hp with rfl | hp'
      · exact hWFr
      · exact hWW p hp'
    rcases ih hnd.2 (fun j hj => hmem j (by simp [hj])) (nodup_listDir_insert hndW)
      hWW2 hrec with ⟨hexcl, hframe, hvals, hkeys, hndW', hWW'⟩
    refine ⟨by rw [hexcl, List.foldl_cons], ?_, ?_, ?_, hndW', hWW'⟩
    · intro n hn
      simp only [List.mem_cons, not_or] at hn
      rw [hframe n hn.2, findEntry_insert_ne hn.1 r work]
    · intro n e hn hfe
      rcases List.mem_cons.mp hn with rfl | hn'
      · have hesrc : src = e := by rw [hsrc] at hfe; exact Option.some.inj hfe
        subst hesrc
        refine ⟨r, hcopy, ?_⟩
        rw [hframe n hnd.1, findEntry_insert_self]
      · have hni : n ≠ i := fun hni => hnd.1 (hni ▸ hn')
        rcases hvals n e hn' hfe with ⟨r', hcr', hfr'⟩
        rw [findEntry_insert_ne hni r work] at hcr'
        exact ⟨r', hcr', hfr'⟩
    · intro n
      rw [hkeys n, mem_listDir_insert]
      constructor
      · rintro ((h' | rfl) | h')
        · exact Or.inl h'
        · exact Or.inr (by simp)
        · exact Or.inr (by simp [h'])
      · rintro (h' | h')
        · exact Or.inl (Or.inl h')
        · rcases List.mem_cons.mp h' with rfl | h''
          · exact Or.inl (Or.inr rfl)
          · exact Or.inr h''

theorem syncInLoop_noop :
    ∀ {items : List String} {store work : FsDir} {excl : List String},
      (∀ i ∈ items, ∃ s w, findEntry i store = some s ∧ findEntry i work = some w ∧
        copyEntry s (some w) = some w ∧ ∃ l ∈ excl, trimSpace l = i) →
      syncInLoop store items work excl = some (work, excl) := by
  intro items
  induction items with
  | nil => intro store work excl _; rfl
  | cons i rest ih =>
    intro store work excl h
    rcases h i (by simp) with ⟨s, w, hs, hw, hcw, hex⟩
    rw [syncInLoop, hs, hw]
    show (match copyEntry s (some w) with
      | none => none
      | some e' =>
        syncInLoop store rest (insertEntry i e' work) (addToExclude excl i)) =
      some (work, excl)
    rw [hcw]
    show syncInLoop store rest (insertEntry i w work) (addToExclude excl i) =
      some (work, excl)
    rw [insertEntry_of_find hw, addToExclude_found hex]
    exact ih (fun j hj => h j (by simp [hj]))

/-! ### Lemmas about `syncOut` -/

theorem syncOutCopy_cons_none {work : FsDir} {i : String} {rest : List String}
    {store : FsDir} (hw : findEntry i work = none) :
    syncOutCopy work (i :: rest) store = syncOutCopy work rest store := by
  rw [syncOutCopy, hw]

theorem syncOutCopy_cons_some {work : FsDir} {i : String} {rest : List String}
    {store : FsDir} {src r : Entry} (hw : findEntry i work = some src)
    (hc : copyEntry src (findEntry i store) = some r) :
    syncOutCopy work (i :: rest) store =
      syncOutCopy work rest (insertEntry i r store) := by
  rw [syncOutCopy, hw]
  show (match copyEntry src (findEntry i store) with
    | none => none
    | some e' => syncOutCopy work rest (insertEntry i e' store)) = _
  rw [hc]

theorem syncOutCopy_cons_inv {work : FsDir} {i : String} {rest : List String}
    {store store' : FsDir} (h : syncOutCopy work (i :: rest) store = some store') :
    (findEntry i work = none ∧ syncOutCopy work rest store = some store') ∨
    (∃ src r, findEntry i work = some src ∧
      copyEntry src (findEntry i store) = some r ∧
      syncOutCopy work rest (insertEntry i r store) = some store') := by
  rcases hw : findEntry i work with _ | src
  · rw [syncOutCopy_cons_none hw] at h
    exact Or.inl ⟨rfl, h⟩
  · rw [syncOutCopy, hw] at h
    have h2 : (match copyEntry src (findEntry i store) with
      | none => none
      | some e' => syncOutCopy work rest (insertEntry i e' store)) =
        some store' := h
    rcases hc : copyEntry src (findEntry i store) with _ | r
    · rw [hc] at h2; cases h2
    · rw [hc] at h2
      exact Or.inr ⟨src, r, rfl, hc, h2⟩

theorem syncOutCopy_char {work : FsDir} (hWW : ∀ p ∈ work, WF p.2) :
    ∀ {items : List String} {store store' : FsDir},
      syncOutCopy work items store = some store' →
      (∀ n, n ∉ items → findEntry n store' = findEntry n store) ∧
      (∀ n, findEntry n work = none → findEntry n store' = findEntry n store) ∧
      (∀ n w, n ∈ items → findEntry n work = some w →
        ∃ r, copyEntry w (findEntry n store) = some r ∧ findEntry n store' = some r) ∧
      (∀ n, n ∈ listDir store' ↔ n ∈ listDir store ∨ (n ∈ items ∧ n ∈ listDir work)) ∧
      ((listDir store).Nodup → (listDir store').Nodup) ∧
      ((∀ p ∈ store, WF p.2) → ∀ p ∈ store', WF p.2) := by
  intro items
  induction items with
  | nil =>
    intro store store' h
    rw [show syncOutCopy work [] store = some store from rfl] at h
    cases h
    exact ⟨fun n _ => rfl, fun n _ => rfl,
      fun n w hn => absurd hn (List.not_mem_nil n), fun n => by simp,
      fun h => h, fun h => h⟩
  | cons i rest ih =>
    intro store store' h
    rcases syncOutCopy_cons_inv h with ⟨hw, hrec⟩ | ⟨src, r, hw, hc, hrec⟩
    · rcases ih hrec with ⟨hf1, hf2, hvals, hkeys, hnd, hWF⟩
      refine ⟨?_, hf2, ?_, ?_, hnd, hWF⟩
      · intro n hn
        exact hf1 n (fun hm => hn (by simp [hm]))
      · intro n w hn hfw
        rcases List.mem_cons.mp hn with rfl | hn'
        · rw [hw] at hfw; cases hfw
        · exact hvals n w hn' hfw
      · intro n
        rw [hkeys n]
        constructor
        · rintro (h' | ⟨h1, h2⟩)
          · exact Or.inl h'
          · exact Or.inr ⟨by simp [h1], h2⟩
        · rintro (h' | ⟨h1, h2⟩)
          · exact Or.inl h'
          · rcases List.mem_cons.mp h1 with rfl | h1'
            · exact absurd (findEntry_eq_none.mp hw) (by simpa using h2)
            · exact Or.inr ⟨h1', h2⟩
    · rcases ih hrec with ⟨hf1, hf2, hvals, hkeys, hnd, hWF⟩
      have hWFsrc : WF src := hWW (i, src) (findEntry_mem hw)
      refine ⟨?_, ?_, ?_, ?_, fun hh => hnd (nodup_listDir_insert hh), ?_⟩
      · intro n hn
        have hni : n ≠ i := fun hni => hn (by simp [hni])
        rw [hf1 n (fun hm => hn (by simp [hm])), findEntry_insert_ne hni r store]
      · intro n hfn
        have hni : n ≠ i := fun hni => by rw [hni, hw] at hfn; cases hfn
        rw [hf2 n hfn, findEntry_insert_ne hni r store]
      · intro n w hn hfw
        by_cases hni : n = i
        · subst hni
          have hwsrc : src = w := by rw [hw] at hfw; exact Option.some.inj hfw
          subst hwsrc
          by_cases hir : n ∈ rest
          · rcases hvals n src hir hfw with ⟨r₂, hcr₂, hfr₂⟩
            rw [findEntry_insert_self] at hcr₂
            have habs : copyEntry src (some r) = some r :=
              copy_absorb src hWFsrc (findEntry n store) r hc
            have hr₂ : r = r₂ := by rw [habs] at hcr₂; exact Option.some.inj hcr₂
            exact ⟨r, hc, by rw [hr₂]; exact hfr₂⟩
          · refine ⟨r, hc, ?_⟩
            rw [hf1 n hir, findEntry_insert_self]
        · have hn' : n ∈ rest := by
            rcases List.mem_cons.mp hn with h' | h'
            · exact absurd h' hni
            · exact h'
          rcases hvals n w hn' hfw with ⟨r', hcr', hfr'⟩
          rw [findEntry_insert_ne hni r store] at hcr'
          exact ⟨r', hcr', hfr'⟩
      · intro n
        rw [hkeys n]
        by_cases hni : n = i
        · subst hni
          simp only [mem_listDir_insert]
          constructor
          · intro _
            exact Or.inr ⟨by simp, findEntry_isSome_iff.mp (by simp [hw])⟩
          · intro _
            exact Or.inl (Or.inr trivial)
        · simp only [mem_listDir_insert, List.mem_cons]
          constructor
          · rintro ((h' | rfl) | ⟨h1, h2⟩)
            · exact Or.inl h'
            · exact absurd rfl hni
            · exact Or.inr ⟨Or.inr h1, h2⟩
          · rintro (h' | ⟨h1, h2⟩)
            · exact Or.inl (Or.inl h')
            · rcases h1 with rfl | h1'
              · exact absurd rfl hni
              · exact Or.inr ⟨h1', h2⟩
      · intro hws p hp
        refine hWF ?_ p hp
        intro q hq
        rcases mem_insertEntry hq with rfl | hq'
        · exact copy_WF src hWFsrc (findEntry i store) r
            (fun eb heb => hws (i, eb) (findEntry_mem heb)) hc
        · exact hws q hq'

theorem syncOutCopy_noop :
    ∀ {items : List String} {work store : FsDir},
      (∀ i ∈ items, ∀ w, findEntry i work = some w →
        ∃ r, findEntry i store = some r ∧ copyEntry w (some r) = some r) →
      syncOutCopy work items store = some store := by
  intro items
  induction items with
  | nil => intro work store _; rfl
  | cons i rest ih =>
    intro work store h
    rcases hw : findEntry i work with _ | w
    · rw [syncOutCopy_cons_none hw]
      exact ih (fun j hj => h j (by simp [hj]))
    · rcases h i (by simp) w hw with ⟨r, hr, hcw⟩
      rw [syncOutCopy_cons_some hw (by rw [hr]; exact hcw), insertEntry_of_find hr]
      exact ih (fun j hj => h j (by simp [hj]))

theorem syncOutPrune_char (items : List String) :
    ∀ (names : List String) {store : FsDir}, (listDir store).Nodup →
      ∀ n, findEntry n (syncOutPrune items names store) =
        if n ∈ names ∧ ¬(n = deletionMarker ∨ n = branchesDir) ∧ n ∉ items then none
        else findEntry n store := by
  intro names
  induction names with
  | nil =>
    intro store _ n
    simp [syncOutPrune]
  | cons m rest ih =>
    intro store hnd n
    by_cases hsp : m = deletionMarker ∨ m = branchesDir
    · rw [syncOutPrune, if_pos hsp, ih hnd n]
      by_cases hnm : n = m
      · subst hnm
        simp [hsp]
      · simp [List.mem_cons, hnm]
    · by_cases hit : m ∈ items
      · rw [syncOutPrune, if_neg hsp, if_pos hit, ih hnd n]
        by_cases hnm : n = m
        · subst hnm
          simp [hit]
        · simp [List.mem_cons, hnm]
      · have hnd2 : (listDir (eraseEntry m store)).Nodup :=
          hnd.sublist (List.Sublist.map Prod.fst (eraseEntry_sublist m store))
        rw [syncOutPrune, if_neg hsp, if_neg hit, ih hnd2 n]
        by_cases hnm : n = m
        · subst hnm
          have hcond : n ∈ n :: rest ∧ ¬(n = deletionMarker ∨ n = branchesDir) ∧
              n ∉ items := ⟨by simp, hsp, hit⟩
          rw [if_pos hcond]
          by_cases h2 : n ∈ rest ∧ ¬(n = deletionMarker ∨ n = branchesDir) ∧ n ∉ items
          · rw [if_pos h2]
          · rw [if_neg h2]
            exact findEntry_erase_self hnd
        · rw [findEntry_erase_ne hnm]
          simp [List.mem_cons, hnm]

theorem syncOutPrune_noop {items : List String} :
    ∀ {names : List String} {store : FsDir},
      (∀ k ∈ names, (k = deletionMarker ∨ k = branchesDir) ∨ k ∈ items) →
      syncOutPrune items names store = store := by
  intro names
  induction names with
  | nil => intro store _; rfl
  | cons m rest ih =>
    intro store h
    rcases h m (by simp) with hsp | hit
    · rw [syncOutPrune, if_pos hsp]
      exact ih (fun k hk => h k (by simp [hk]))
    · by_cases hsp : m = deletionMarker ∨ m = branchesDir
      · rw [syncOutPrune, if_pos hsp]
        exact ih (fun k hk => h k (by simp [hk]))
      · rw [syncOutPrune, if_neg hsp, if_pos hit]
        exact ih (fun k hk => h k (by simp [hk]))

theorem syncOutPrune_sublist {items : List String} :
    ∀ {names : List String} {store : FsDir},
      List.Sublist (syncOutPrune items names store) store := by
  intro names
  induction names with
  | nil => intro store; exact List.Sublist.refl _
  | cons m rest ih =>
    intro store
    by_cases hsp : m = deletionMarker ∨ m = branchesDir
    · rw [syncOutPrune, if_pos hsp]; exact ih
    · by_cases hit : m ∈ items
      · rw [syncOutPrune, if_neg hsp, if_pos hit]; exact ih
      · rw [syncOutPrune, if_neg hsp, if_neg hit]
        exact List.Sublist.trans ih (eraseEntry_sublist m store)

theorem syncOut_inv {store work : FsDir} {excl : List String} {store' : FsDir}
    (h : syncOut store work excl = some store') :
    ∃ mid, syncOutCopy work (readExcludeFile excl work) store = some mid ∧
      store' = syncOutPrune (readExcludeFile excl work) (listDir mid) mid := by
  rcases hc : syncOutCopy work (readExcludeFile excl work) store with _ | mid
  · rw [syncOut, hc] at h
    cases h
  · rw [syncOut, hc] at h
    exact ⟨mid, rfl, (Option.some.inj h).symm⟩

theorem syncOut_char {store work : FsDir} {excl : List String} {store' : FsDir}
    (hndS : (listDir store).Nodup) (hWS : ∀ p ∈ store, WF p.2)
    (hWW : ∀ p ∈ work, WF p.2)
    (h : syncOut store work excl = some store') :
    (∀ n ∈ readExcludeFile excl work, (findEntry n work).isSome) ∧
    (∀ n w, n ∈ readExcludeFile excl work → findEntry n work = some w →
      ∃ r, copyEntry w (findEntry n store) = some r ∧ findEntry n store' = some r) ∧
    (∀ n, n ∉ readExcludeFile excl work → (n = deletionMarker ∨ n = branchesDir) →
      findEntry n store' = findEntry n store) ∧
    (∀ n, n ∉ readExcludeFile excl work → ¬(n = deletionMarker ∨ n = branchesDir) →
      findEntry n store' = none) ∧
    (∀ n ∈ listDir store', (n = deletionMarker ∨ n = branchesDir) ∨
      n ∈ readExcludeFile excl work) ∧
    (listDir store').Nodup ∧ (∀ p ∈ store', WF p.2) := by
  rcases syncOut_inv h with ⟨mid, hcopy, rfl⟩
  rcases syncOutCopy_char hWW hcopy with ⟨hf1, _, hvals, _, hndmid, hWFmid⟩
  have hndm : (listDir mid).Nodup := hndmid hndS
  have hWFm : ∀ p ∈ mid, WF p.2 := hWFmid hWS
  have hprune := syncOutPrune_char (readExcludeFile excl work) (listDir mid) hndm
  refine ⟨fun n hn => (readExcludeFile_mem hn).1, ?_, ?_, ?_, ?_, ?_, ?_⟩
  · intro n w hn hfw
    rcases hvals n w hn hfw with ⟨r, hcr, hfr⟩
    refine ⟨r, hcr, ?_⟩
    rw [hprune n, if_neg (fun hcond => hcond.2.2 hn)]
    exact hfr
  · intro n hn hsp
    rw [hprune n, if_neg (fun hcond => hcond.2.1 hsp)]
    exact hf1 n hn
  · intro n hn hsp
    rw [hprune n]
    by_cases hm : n ∈ listDir mid
    · rw [if_pos ⟨hm, hsp, hn⟩]
    · rw [if_neg (fun hcond => hm hcond.1)]
      exact findEntry_eq_none.mpr hm
  · intro n hn
    by_contra hcon
    have hsp : ¬(n = deletionMarker ∨ n = branchesDir) := fun h' => hcon (Or.inl h')
    have hni : n ∉ readExcludeFile excl work := fun h' => hcon (Or.inr h')
    have hnone : findEntry n (syncOutPrune (readExcludeFile excl work)
        (listDir mid) mid) = none := by
      rw [hprune n]
      by_cases hm : n ∈ listDir mid
      · rw [if_pos ⟨hm, hsp, hni⟩]
      · rw [if_neg (fun hcond => hm hcond.1)]
        exact findEntry_eq_none.mpr hm
    exact (findEntry_eq_none.mp hnone) hn
  · exact hndm.sublist (List.Sublist.map Prod.fst syncOutPrune_sublist)
  · intro p hp
    exact hWFm p (syncOutPrune_sublist.subset hp)

/-! ### Sync Engine claims -/

/-- **C1.** `syncIn` lists only the entries directly under the resolved
storage location, drops exactly the names `.deleted_at` and `branches`,
copies each remaining entry into the working tree at the same relative
path, registers it via the idempotent exclude add, and touches nothing
else in the working tree — in particular, the marker and `branches` are
never created there. -/
theorem syncIn_spec (store work : FsDir) (excl : List String)
    (work' : FsDir) (excl' : List String)
    (hndS : (listDir store).Nodup) (hWS : ∀ p ∈ store, WF p.2)
    (hndW : (listDir work).Nodup) (hWW : ∀ p ∈ work, WF p.2)
    (h : syncIn store work excl = some (work', excl')) :
    filterItems (listDir store) = (listDir store).filter
      (fun n => decide (¬(n = deletionMarker ∨ n = branchesDir))) ∧
    excl' = (filterItems (listDir store)).foldl addToExclude excl ∧
    (∀ n e, n ∈ filterItems (listDir store) → findEntry n store = some e →
      ∃ r, copyEntry e (findEntry n work) = some r ∧ findEntry n work' = some r) ∧
    (∀ n, n ∉ filterItems (listDir store) → findEntry n work' = findEntry n work) ∧
    findEntry deletionMarker work' = findEntry deletionMarker work ∧
    findEntry branchesDir work' = findEntry branchesDir work := by
  have hloop : syncInLoop store (filterItems (listDir store)) work excl =
      some (work', excl') := h
  rcases syncInLoop_char hndS hWS (nodup_filterItems hndS)
    (fun i hi => (mem_filterItems.mp hi).1) hndW hWW hloop with
    ⟨hexcl, hframe, hvals, _, _, _⟩
  refine ⟨filterItems_eq_filter _, hexcl, hvals, hframe, ?_, ?_⟩
  · exact hframe deletionMarker (fun hm => (mem_filterItems.mp hm).2 (Or.inl rfl))
  · exact hframe branchesDir (fun hm => (mem_filterItems.mp hm).2 (Or.inr rfl))

/-- Witness for `syncIn_spec`: one ordinary file in storage is copied
into the empty working tree and registered in the exclude list. -/
theorem syncIn_spec_witness :
    (listDir [("a", Entry.file "x" 420)]).Nodup ∧
    (filterItems (listDir [("a", Entry.file "x" 420)]) =
      (listDir [("a", Entry.file "x" 420)]).filter
        (fun n => decide (¬(n = deletionMarker ∨ n = branchesDir))) ∧
    ["a"] = (filterItems (listDir [("a", Entry.file "x" 420)])).foldl addToExclude [] ∧
    (∀ n e, n ∈ filterItems (listDir [("a", Entry.file "x" 420)]) →
      findEntry n [("a", Entry.file "x" 420)] = some e →
      ∃ r, copyEntry e (findEntry n []) = some r ∧
        findEntry n [("a", Entry.file "x" 420)] = some r) ∧
    (∀ n, n ∉ filterItems (listDir [("a", Entry.file "x" 420)]) →
      findEntry n [("a", Entry.file "x" 420)] = findEntry n []) ∧
    findEntry deletionMarker [("a", Entry.file "x" 420)] = findEntry deletionMarker [] ∧
    findEntry branchesDir [("a", Entry.file "x" 420)] = findEntry branchesDir []) :=
  ⟨by decide,
   syncIn_spec [("a", Entry.file "x" 420)] [] [] [("a", Entry.file "x" 420)] ["a"]
    (by decide)
    (by
      intro p hp
      simp only [List.mem_singleton] at hp
      subst hp
      exact WF.file _ _)
    (by simp [listDir])
    (fun p hp => absurd hp (List.not_mem_nil p))
    rfl⟩

/-- **C2.** `syncOut` copies into storage exactly the managed entries
that exist in the working tree (listed-but-absent entries are skipped
without error), then prunes from storage every top-level entry that is
not the deletion marker, not `branches`, and not managed; the two
bookkeeping names are preserved. -/
theorem syncOut_spec (store work : FsDir) (excl : List String) (store' : FsDir)
    (hndS : (listDir store).Nodup) (hWS : ∀ p ∈ store, WF p.2)
    (hWW : ∀ p ∈ work, WF p.2)
    (h : syncOut store work excl = some store') :
    (∀ n ∈ readExcludeFile excl work, (findEntry n work).isSome) ∧
    (∀ (itemsAbsent : List String) (storeX : FsDir),
      (∀ i ∈ itemsAbsent, findEntry i work = none) →
      syncOutCopy work itemsAbsent storeX = some storeX) ∧
    (∀ n w, n ∈ readExcludeFile excl work → findEntry n work = some w →
      ∃ r, copyEntry w (findEntry n store) = some r ∧ findEntry n store' = some r) ∧
    (∀ n, n ∉ readExcludeFile excl work →
      ((n = deletionMarker ∨ n = branchesDir) →
        findEntry n store' = findEntry n store) ∧
      (¬(n = deletionMarker ∨ n = branchesDir) → findEntry n store' = none)) := by
  rcases syncOut_char hndS hWS hWW h with ⟨hsome, hvals, hkeep, hprune, _, _, _⟩
  refine ⟨hsome, ?_, hvals, fun n hn => ⟨hkeep n hn, hprune n hn⟩⟩
  intro itemsAbsent storeX habs
  exact syncOutCopy_noop (fun i hi w hw => by rw [habs i hi] at hw; cases hw)

/-- Witness for `syncOut_spec`: exclude lists `exists` and
`deleted-file`; only `exists` is on disk, so only it is persisted, and
nothing is created for the missing entry. -/
theorem syncOut_spec_witness :
    syncOut [] [("exists", Entry.file "x" 420)] ["exists", "deleted-file"] =
      some [("exists", Entry.file "x" 420)] ∧
    (∀ n ∈ readExcludeFile ["exists", "deleted-file"] [("exists", Entry.file "x" 420)],
      (findEntry n [("exists", Entry.file "x" 420)]).isSome) ∧
    (∀ (itemsAbsent : List String) (storeX : FsDir),
      (∀ i ∈ itemsAbsent, findEntry i [("exists", Entry.file "x" 420)] = none) →
      syncOutCopy [("exists", Entry.file "x" 420)] itemsAbsent storeX = some storeX) :=
  ⟨by rfl,
   (syncOut_spec [] [("exists", Entry.file "x" 420)] ["exists", "deleted-file"]
      [("exists", Entry.file "x" 420)]
      (by simp [listDir])
      (fun p hp => absurd hp (List.not_mem_nil p))
      (by
        intro p hp
        simp only [List.mem_singleton] at hp
        subst hp
        exact WF.file _ _)
      (by rfl)).1,
   (syncOut_spec [] [("exists", Entry.file "x" 420)] ["exists", "deleted-file"]
      [("exists", Entry.file "x" 420)]
      (by simp [listDir])
      (fun p hp => absurd hp (List.not_mem_nil p))
      (by
        intro p hp
        simp only [List.mem_singleton] at hp
        subst hp
        exact WF.file _ _)
      (by rfl)).2.1⟩

/-! ### Storage Resolver claim -/

theorem initCopyLoop_char {base : FsDir} (hnd : (listDir base).Nodup)
    (hWF : ∀ p ∈ base, WF p.2) :
    ∀ (entries : List (String × Entry)) (acc : FsDir),
      (∀ p ∈ entries, findEntry p.1 base = some p.2) →
      (entries.map Prod.fst).Nodup →
      (∀ n ∈ entries.map Prod.fst, n ∉ listDir acc) →
      initCopyLoop base (entries.map Prod.fst) acc =
        some (acc ++ entries.filter
          (fun p => decide (¬(p.1 = branchesDir ∨ p.1 = deletionMarker)))) := by
  intro entries
  induction entries with
  | nil =>
    intro acc _ _ _
    simp [initCopyLoop]
  | cons p rest ih =>
    rcases p with ⟨n, e⟩
    intro acc hres hnd2 hdisj
    simp only [List.map_cons, List.nodup_cons] at hnd2
    by_cases hsp : n = branchesDir ∨ n = deletionMarker
    · rw [List.map_cons, initCopyLoop, if_pos hsp,
        ih acc (fun q hq => hres q (by simp [hq])) hnd2.2
          (fun k hk => hdisj k (by simp [hk])), List.filter_cons]
      simp [hsp]
    · have hfb : findEntry n base = some e := hres (n, e) (by simp)
      have hna : n ∉ listDir acc := hdisj n (by simp)
      have hfa : findEntry n acc = none := findEntry_eq_none.mpr hna
      have hce : copyEntry e none = some e :=
        copy_none_id e (hWF (n, e) (findEntry_mem hfb))
      rw [List.map_cons, initCopyLoop, if_neg hsp, hfb]
      show (match copyEntry e (findEntry n acc) with
        | none => none
        | some e' => initCopyLoop base (rest.map Prod.fst) (insertEntry n e' acc)) = _
      rw [hfa, hce]
      show initCopyLoop base (rest.map Prod.fst) (insertEntry n e acc) = _
      rw [insertEntry_append e hna]
      have hdisj2 : ∀ k ∈ rest.map Prod.fst, k ∉ listDir (acc ++ [(n, e)]) := by
        intro k hk hmem
        simp only [listDir, List.map_append, List.mem_append, List.map_cons,
          List.map_nil, List.mem_singleton] at hmem
        rcases hmem with hmem | hmem
        · exact hdisj k (by simp [hk]) (by simpa [listDir] using hmem)
        · subst hmem
          exact hnd2.1 hk
      rw [ih (acc ++ [(n, e)]) (fun q hq => hres q (by simp [hq])) hnd2.2 hdisj2,
        List.filter_cons]
      simp [hsp]

/-- **C9.** Branch-storage initialization is a no-op on the default
branch or when the resolved location already exists (existing content is
never modified); otherwise it creates the location and, when the base
storage root exists, seeds it with every base entry except `branches`
and the deletion marker (empty when the base root is absent). -/
theorem initializeBranchStorage_spec (cur deflt : String)
    (storeBase storeLocation : Option FsDir) :
    (cur = deflt →
      initializeBranchStorage cur deflt storeBase storeLocation = some storeLocation) ∧
    (∀ d, storeLocation = some d →
      initializeBranchStorage cur deflt storeBase storeLocation = some (some d)) ∧
    (cur ≠ deflt → storeLocation = none → storeBase = none →
      initializeBranchStorage cur deflt storeBase storeLocation = some (some [])) ∧
    (∀ b, cur ≠ deflt → storeLocation = none → storeBase = some b →
      (listDir b).Nodup → (∀ p ∈ b, WF p.2) →
      initializeBranchStorage cur deflt storeBase storeLocation =
        some (some (b.filter
          (fun p => decide (¬(p.1 = branchesDir ∨ p.1 = deletionMarker)))))) := by
  refine ⟨?_, ?_, ?_, ?_⟩
  · intro hcd
    rw [initializeBranchStorage.eq_def, if_pos hcd]
  · intro d hd
    subst hd
    rw [initializeBranchStorage.eq_def]
    by_cases hcd : cur = deflt
    · rw [if_pos hcd]
    · rw [if_neg hcd]
  · intro hcd hloc hbase
    subst hloc
    subst hbase
    rw [initializeBranchStorage.eq_def, if_neg hcd]
  · intro b hcd hloc hbase hnd hWF
    subst hloc
    subst hbase
    rw [initializeBranchStorage.eq_def, if_neg hcd]
    show (initCopyLoop b (listDir b) []).map some = _
    have hchar := initCopyLoop_char hnd hWF b []
      (fun p hp => findEntry_of_mem_nodup hnd hp) hnd (by simp [listDir])
    rw [show listDir b = b.map Prod.fst from rfl, hchar]
    simp

/-- Witness for `initializeBranchStorage_spec`: a fresh feature branch is
seeded from the base root, inheriting the user file but neither
`branches/` nor the deletion marker. -/
theorem initializeBranchStorage_spec_witness :
    ("feat" : String) ≠ "main" ∧
    initializeBranchStorage "feat" "main"
      (some [("a", Entry.file "x" 493), (branchesDir, Entry.dir 493 []),
        (deletionMarker, Entry.file "0" 420)]) none =
      some (some [("a", Entry.file "x" 493)]) :=
  ⟨by decide,
   (initializeBranchStorage_spec "feat" "main"
      (some [("a", Entry.file "x" 493), (branchesDir, Entry.dir 493 []),
        (deletionMarker, Entry.file "0" 420)]) none).2.2.2
      [("a", Entry.file "x" 493), (branchesDir, Entry.dir 493 []),
        (deletionMarker, Entry.file "0" 420)]
      (by decide) rfl rfl (by decide)
      (by
        intro p hp
        simp only [List.mem_cons, List.not_mem_nil, or_false] at hp
        rcases hp with hp | hp | hp
        · subst hp; exact WF.file _ _
        · subst hp
          exact WF.dir 493 [] (by simp) (fun q hq => absurd hq (List.not_mem_nil q))
        · subst hp; exact WF.file _ _)⟩

/-! ### Nested-bookkeeping-names claim -/

/-- **C10.** Only exact top-level names `.deleted_at` and `branches` are
excluded from sync-in and protected from sync-out pruning: `filterItems`
drops exactly those two names, the recursive copy reproduces nested
children with those names verbatim (sync-in materializes them), and a
managed directory containing such nested children is still pruned whole
by sync-out when it is no longer managed. -/
theorem nested_special_names (n : String) (dm fm bm : Nat) (c : String)
    (hn : ¬(n = deletionMarker ∨ n = branchesDir)) :
    filterItems [deletionMarker, branchesDir, n] = [n] ∧
    (∀ e, WF e → copyEntry e none = some e) ∧
    syncIn [(n, Entry.dir dm [(deletionMarker, Entry.file c fm),
        (branchesDir, Entry.dir bm [])])] [] [] =
      some ([(n, Entry.dir dm [(deletionMarker, Entry.file c fm),
        (branchesDir, Entry.dir bm [])])], [n]) ∧
    syncOut [(n, Entry.dir dm [(deletionMarker, Entry.file c fm),
        (branchesDir, Entry.dir bm [])])] [] [] = some [] := by
  have hfi : filterItems [n] = [n] := by
    rw [filterItems, if_neg hn]
    rfl
  refine ⟨?_, copy_none_id, ?_, ?_⟩
  · rw [filterItems, if_pos (Or.inl rfl), filterItems, if_pos (Or.inr rfl), hfi]
  · show syncInLoop _ (filterItems [n]) [] [] = _
    rw [hfi]
    have hfind : findEntry n [(n, Entry.dir dm [(deletionMarker, Entry.file c fm),
        (branchesDir, Entry.dir bm [])])] =
        some (Entry.dir dm [(deletionMarker, Entry.file c fm),
          (branchesDir, Entry.dir bm [])]) := by
      simp [findEntry]
    rw [syncInLoop, hfind]
    show (match copyEntry (Entry.dir dm [(deletionMarker, Entry.file c fm),
        (branchesDir, Entry.dir bm [])]) none with
      | none => none
      | some e' => syncInLoop _ [] (insertEntry n e' []) (addToExclude [] n)) = _
    rw [show copyEntry (Entry.dir dm [(deletionMarker, Entry.file c fm),
        (branchesDir, Entry.dir bm [])]) none =
      some (Entry.dir dm [(deletionMarker, Entry.file c fm),
        (branchesDir, Entry.dir bm [])]) from rfl]
    rfl
  · have hstep : syncOut [(n, Entry.dir dm [(deletionMarker, Entry.file c fm),
        (branchesDir, Entry.dir bm [])])] [] [] =
        some (syncOutPrune [] [n] [(n, Entry.dir dm [(deletionMarker, Entry.file c fm),
          (branchesDir, Entry.dir bm [])])]) := rfl
    rw [hstep, syncOutPrune, if_neg hn, if_neg (List.not_mem_nil n)]
    show some (eraseEntry n [(n, Entry.dir dm [(deletionMarker, Entry.file c fm),
      (branchesDir, Entry.dir bm [])])]) = some []
    simp [eraseEntry]

/-- Witness for `nested_special_names` at the entry name `docs`. -/
theorem nested_special_names_witness :
    ¬(("docs" : String) = deletionMarker ∨ ("docs" : String) = branchesDir) ∧
    syncIn [("docs", Entry.dir 493 [(deletionMarker, Entry.file "1700000000" 420),
        (branchesDir, Entry.dir 493 [])])] [] [] =
      some ([("docs", Entry.dir 493 [(deletionMarker, Entry.file "1700000000" 420),
        (branchesDir, Entry.dir 493 [])])], ["docs"]) ∧
    syncOut [("docs", Entry.dir 493 [(deletionMarker, Entry.file "1700000000" 420),
        (branchesDir, Entry.dir 493 [])])] [] [] = some [] :=
  ⟨by decide,
   (nested_special_names "docs" 493 420 493 "1700000000" (by decide)).2.2.1,
   (nested_special_names "docs" 493 420 493 "1700000000" (by decide)).2.2.2⟩

/-! ### The sync-in / sync-out cycle (claim C3) -/

theorem cycle_inv {s s' : SessionState} (h : cycle s = some s') :
    ∃ work1 excl1 store1, syncIn s.store s.work s.excl = some (work1, excl1) ∧
      syncOut s.store work1 excl1 = some store1 ∧
      s' = ⟨store1, work1, excl1⟩ := by
  rcases hsi : syncIn s.store s.work s.excl with _ | p
  · rw [cycle, hsi] at h; cases h
  · rcases p with ⟨work1, excl1⟩
    rw [cycle, hsi] at h
    have h2 : (match syncOut s.store work1 excl1 with
      | none => none
      | some store1 => some (⟨store1, work1, excl1⟩ : SessionState)) = some s' := h
    rcases hso : syncOut s.store work1 excl1 with _ | store1
    · rw [hso] at h2; cases h2
    · rw [hso] at h2
      exact ⟨work1, excl1, store1, rfl, hso, (Option.some.inj h2).symm⟩

theorem cycle_mk {s : SessionState} {work1 : FsDir} {excl1 : List String}
    {store1 : FsDir} (hsi : syncIn s.store s.work s.excl = some (work1, excl1))
    (hso : syncOut s.store work1 excl1 = some store1) :
    cycle s = some ⟨store1, work1, excl1⟩ := by
  rw [cycle, hsi]
  show (match syncOut s.store work1 excl1 with
    | none => none
    | some store1 => some (⟨store1, work1, excl1⟩ : SessionState)) = _
  rw [hso]

theorem foldl_addToExclude_covers :
    ∀ {items lines : List String} {i : String}, i ∈ items →
      ∃ l ∈ items.foldl addToExclude lines, trimSpace l = i ∨ l = i := by
  intro items
  induction items with
  | nil => intro lines i hi; cases hi
  | cons j rest ih =>
    intro lines i hi
    rcases List.mem_cons.mp hi with rfl | hi'
    · rw [List.foldl_cons]
      by_cases hf : lines.any (fun l => trimSpace l == i)
      · rcases List.any_eq_true.mp hf with ⟨l, hl, heq⟩
        exact ⟨l, subset_foldl_addToExclude
          (by rw [addToExclude, if_pos hf]; exact hl), Or.inl (beq_iff_eq.mp heq)⟩
      · refine ⟨i, subset_foldl_addToExclude ?_, Or.inr rfl⟩
        rw [addToExclude, if_neg hf]
        simp
    · rw [List.foldl_cons]
      exact ih hi'

theorem foldl_addToExclude_trim_nodup :
    ∀ {items lines : List String},
      (lines.map trimSpace).Nodup → (∀ i ∈ items, trimSpace i = i) →
      ((items.foldl addToExclude lines).map trimSpace).Nodup := by
  intro items
  induction items with
  | nil => intro lines h _; exact h
  | cons j rest ih =>
    intro lines h hcl
    rw [List.foldl_cons]
    apply ih ?_ (fun i hi => hcl i (by simp [hi]))
    rw [addToExclude]
    by_cases hf : lines.any (fun l => trimSpace l == j)
    · rw [if_pos hf]; exact h
    · rw [if_neg hf, List.map_append]
      refine List.Nodup.append h (by simp) ?_
      intro a ha hb
      simp only [List.map_cons, List.map_nil, List.mem_singleton] at hb
      rcases List.mem_map.mp ha with ⟨l, hl, hla⟩
      simp only [List.any_eq_true, not_exists, not_and] at hf
      have hfl := hf l hl
      rw [beq_iff_eq] at hfl
      exact hfl (by rw [hla, hb, hcl j (by simp)])

/-- Every managed entry derived from a line of the final exclude list is
itself witnessed by a line whose trimmed content equals it. -/
theorem excl_fold_covers {excl0 items0 : List String}
    (hexcl : ∀ l ∈ excl0, trimSlashSuffix (trimSpace l) = trimSpace l)
    (hclean : ∀ i ∈ items0, trimSpace i = i ∧ trimSlashSuffix i = i)
    {raw n : String} (hraw : raw ∈ items0.foldl addToExclude excl0)
    (heq : trimSlashSuffix (trimSpace raw) = n) :
    ∃ l ∈ items0.foldl addToExclude excl0, trimSpace l = n := by
  rcases mem_foldl_addToExclude hraw with hr0 | hr0
  · refine ⟨raw, subset_foldl_addToExclude hr0, ?_⟩
    rw [hexcl raw hr0] at heq
    exact heq
  · have hcl := hclean raw hr0
    have hrawn : raw = n := by
      rw [hcl.1, hcl.2] at heq
      exact heq
    rcases foldl_addToExclude_covers hr0 with ⟨l, hl, hd⟩
    refine ⟨l, hl, ?_⟩
    rcases hd with hd | hd
    · rw [hd, hrawn]
    · rw [hd, hcl.1, hrawn]

/-- One cycle on well-formed state with clean names and slash-free
exclude lines reaches a fixed point of `cycle` after the first run. -/
theorem cycle_step_idempotent {s0 s1 : SessionState}
    (hndS : (listDir s0.store).Nodup) (hWS : ∀ p ∈ s0.store, WF p.2)
    (hndW : (listDir s0.work).Nodup) (hWW : ∀ p ∈ s0.work, WF p.2)
    (hexcl : ∀ l ∈ s0.excl, trimSlashSuffix (trimSpace l) = trimSpace l)
    (hnames : ∀ n ∈ listDir s0.store, ¬(n = deletionMarker ∨ n = branchesDir) →
      trimSpace n = n ∧ trimSlashSuffix n = n)
    (h1 : cycle s0 = some s1) : cycle s1 = some s1 := by
  rcases cycle_inv h1 with ⟨work1, excl1, store1, hsi, hso, rfl⟩
  have hnd0 : (filterItems (listDir s0.store)).Nodup := nodup_filterItems hndS
  have hmem0 : ∀ i ∈ filterItems (listDir s0.store), i ∈ listDir s0.store :=
    fun i hi => (mem_filterItems.mp hi).1
  have hloop : syncInLoop s0.store (filterItems (listDir s0.store)) s0.work s0.excl =
      some (work1, excl1) := hsi
  rcases syncInLoop_char hndS hWS hnd0 hmem0 hndW hWW hloop with
    ⟨hexcl1, hframeW, hvalsW, hkeysW, hndW1, hWW1⟩
  rcases syncOut_char hndS hWS hWW1 hso with
    ⟨hitemsSome, hvalsS, hkeepS, hpruneS, hkeysS, hndS1, hWS1⟩
  -- sync-out of the second cycle copies every managed entry onto itself
  have mainOut : ∀ nn w, nn ∈ readExcludeFile excl1 work1 →
      findEntry nn work1 = some w →
      ∃ r, findEntry nn store1 = some r ∧ copyEntry w (some r) = some r := by
    intro nn w hni hfw
    rcases hvalsS nn w hni hfw with ⟨r, hcr, hfr⟩
    exact ⟨r, hfr,
      copy_absorb w (hWW1 (nn, w) (findEntry_mem hfw)) (findEntry nn s0.store) r hcr⟩
  -- sync-in of the second cycle copies every stored entry onto itself
  have mainIn : ∀ nn, nn ∈ readExcludeFile excl1 work1 →
      ¬(nn = deletionMarker ∨ nn = branchesDir) →
      ∃ s w, findEntry nn store1 = some s ∧ findEntry nn work1 = some w ∧
        copyEntry s (some w) = some w := by
    intro nn hni hsp
    have hsome := hitemsSome nn hni
    rcases hfw : findEntry nn work1 with _ | w
    · rw [hfw] at hsome; simp at hsome
    rcases hvalsS nn w hni hfw with ⟨r, hcr, hfr⟩
    refine ⟨r, w, hfr, rfl, ?_⟩
    by_cases h0 : nn ∈ filterItems (listDir s0.store)
    · rcases hfe : findEntry nn s0.store with _ | e
      · exact absurd (hmem0 nn h0) (findEntry_eq_none.mp hfe)
      rcases hvalsW nn e h0 hfe with ⟨w', hcw', hfw'⟩
      have hww : w = w' := by rw [hfw] at hfw'; exact Option.some.inj hfw'
      rw [← hww] at hcw'
      rw [hfe] at hcr
      exact (copy_round e (hWS (nn, e) (findEntry_mem hfe)) (findEntry nn s0.work) w r
        (fun eb heb => hWW (nn, eb) (findEntry_mem heb)) hcw' hcr).1
    · have hns : findEntry nn s0.store = none := by
        apply findEntry_eq_none.mpr
        intro hmem
        exact h0 (mem_filterItems.mpr ⟨hmem, hsp⟩)
      rw [hns] at hcr
      have hWFw : WF w := hWW1 (nn, w) (findEntry_mem hfw)
      have hrw : w = r := by
        rw [copy_none_id w hWFw] at hcr
        exact Option.some.inj hcr
      rw [← hrw]
      exact copy_self w hWFw
  have hclean0 : ∀ i ∈ filterItems (listDir s0.store),
      trimSpace i = i ∧ trimSlashSuffix i = i := by
    intro i hi
    exact hnames i (mem_filterItems.mp hi).1 (mem_filterItems.mp hi).2
  -- second sync-in is the identity
  have hsyncIn2 : syncIn store1 work1 excl1 = some (work1, excl1) := by
    show syncInLoop store1 (filterItems (listDir store1)) work1 excl1 = _
    apply syncInLoop_noop
    intro i hi
    have hsp := (mem_filterItems.mp hi).2
    have hmem1 : i ∈ listDir store1 := (mem_filterItems.mp hi).1
    have hii : i ∈ readExcludeFile excl1 work1 := by
      rcases hkeysS i hmem1 with hspec | hin
      · exact absurd hspec hsp
      · exact hin
    rcases mainIn i hii hsp with ⟨s, w, hs, hw, hcw⟩
    refine ⟨s, w, hs, hw, hcw, ?_⟩
    rcases (readExcludeFile_mem hii).2 with ⟨raw, hraw, hrawEq⟩
    rw [hexcl1] at hraw
    have hcover := excl_fold_covers hexcl hclean0 hraw hrawEq
    rw [← hexcl1] at hcover
    exact hcover
  -- second sync-out is the identity
  have hcopy2 : syncOutCopy work1 (readExcludeFile excl1 work1) store1 = some store1 :=
    syncOutCopy_noop (fun i hi w hw => mainOut i w hi hw)
  have hsyncOut2 : syncOut store1 work1 excl1 = some store1 := by
    rw [syncOut, hcopy2]
    show some (syncOutPrune (readExcludeFile excl1 work1) (listDir store1) store1) =
      some store1
    rw [syncOutPrune_noop (fun k hk => hkeysS k hk)]
  exact cycle_mk hsyncIn2 hsyncOut2

theorem cycleN_fixed {s : SessionState} (h : cycle s = some s) :
    ∀ k, cycleN k s = some s := by
  intro k
  induction k with
  | zero => rfl
  | succ k ih =>
    rw [cycleN, h]
    exact ih

/-- **C3 (amended).** For a well-formed storage and working tree whose
non-bookkeeping top-level storage names are unchanged by whitespace
trimming and carry no trailing slash, and whose pre-existing exclude
lines have no trailing slash after trimming, a first successful
sync-in/sync-out cycle reaches a fixed point: every \(N ≥ 1\) cycles
produce exactly the same storage, working tree and exclude lines as the
first; and when the initial exclude lines are duplicate-free after
trimming, each managed entry is matched by exactly one exclude line. -/
theorem cycle_idempotent_amended (s0 s1 : SessionState)
    (hndS : (listDir s0.store).Nodup) (hWS : ∀ p ∈ s0.store, WF p.2)
    (hndW : (listDir s0.work).Nodup) (hWW : ∀ p ∈ s0.work, WF p.2)
    (hexcl : ∀ l ∈ s0.excl, trimSlashSuffix (trimSpace l) = trimSpace l)
    (hnames : ∀ n ∈ listDir s0.store, ¬(n = deletionMarker ∨ n = branchesDir) →
      trimSpace n = n ∧ trimSlashSuffix n = n)
    (h1 : cycle s0 = some s1) :
    (∀ N, 1 ≤ N → cycleN N s0 = some s1) ∧
    ((s0.excl.map trimSpace).Nodup →
      ∀ n ∈ readExcludeFile s1.excl s1.work, (s1.excl.map trimSpace).count n = 1) := by
  have hstep := cycle_step_idempotent hndS hWS hndW hWW hexcl hnames h1
  constructor
  · intro N hN
    rcases N with _ | k
    · omega
    · rw [cycleN, h1]
      exact cycleN_fixed hstep k
  · intro hnd n hn
    rcases cycle_inv h1 with ⟨work1, excl1, store1, hsi, hso, hs1⟩
    subst hs1
    have hnd0 : (filterItems (listDir s0.store)).Nodup := nodup_filterItems hndS
    have hmem0 : ∀ i ∈ filterItems (listDir s0.store), i ∈ listDir s0.store :=
      fun i hi => (mem_filterItems.mp hi).1
    have hloop : syncInLoop s0.store (filterItems (listDir s0.store)) s0.work
        s0.excl = some (work1, excl1) := hsi
    have hexcl1 : excl1 =
        (filterItems (listDir s0.store)).foldl addToExclude s0.excl :=
      (syncInLoop_char hndS hWS hnd0 hmem0 hndW hWW hloop).1
    have hcleanpair : ∀ i ∈ filterItems (listDir s0.store),
        trimSpace i = i ∧ trimSlashSuffix i = i :=
      fun i hi => hnames i (mem_filterItems.mp hi).1 (mem_filterItems.mp hi).2
    have hnodup1 : (excl1.map trimSpace).Nodup := by
      rw [hexcl1]
      exact foldl_addToExclude_trim_nodup hnd (fun i hi => (hcleanpair i hi).1)
    rcases (readExcludeFile_mem hn).2 with ⟨raw, hraw, hrawEq⟩
    rcases excl_fold_covers hexcl hcleanpair (hexcl1 ▸ hraw) hrawEq with ⟨l, hl, hlt⟩
    have hmemmap : n ∈ excl1.map trimSpace :=
      List.mem_map.mpr ⟨l, by rw [hexcl1]; exact hl, hlt⟩
    exact List.count_eq_one_of_mem hnodup1 hmemmap

/-- Witness for `cycle_idempotent_amended`: one clean file in storage;
two cycles land on the same state as one, and the single managed entry
occupies exactly one exclude line. -/
theorem cycle_idempotent_amended_witness :
    cycle ⟨[("a", Entry.file "x" 420)], [], []⟩ =
      some ⟨[("a", Entry.file "x" 420)], [("a", Entry.file "x" 420)], ["a"]⟩ ∧
    cycleN 2 ⟨[("a", Entry.file "x" 420)], [], []⟩ =
      some ⟨[("a", Entry.file "x" 420)], [("a", Entry.file "x" 420)], ["a"]⟩ ∧
    ((["a"] : List String).map trimSpace).count "a" = 1 := by
  have hWS : ∀ p ∈ [("a", Entry.file "x" 420)], WF p.2 := by
    intro p hp
    simp only [List.mem_singleton] at hp
    subst hp
    exact WF.file _ _
  have hmain := cycle_idempotent_amended ⟨[("a", Entry.file "x" 420)], [], []⟩
    ⟨[("a", Entry.file "x" 420)], [("a", Entry.file "x" 420)], ["a"]⟩
    (by decide) hWS (by simp [listDir])
    (fun p hp => absurd hp (List.not_mem_nil p))
    (fun l hl => absurd hl (List.not_mem_nil l))
    (by
      intro n hn _
      simp only [listDir, List.map_cons, List.map_nil, List.mem_singleton] at hn
      subst hn
      exact ⟨rfl, rfl⟩)
    rfl
  exact ⟨rfl, hmain.1 2 (by omega), hmain.2 (by simp) "a" (by decide)⟩

/-- Counterexample to **C3** as stated: from a storage/exclude state with
a pre-existing trailing-slash exclude line `d/`, the second cycle appends
a new line `d`, so the state after cycle 2 differs from the state after
cycle 1 (the exclude list is not stable and the entry `d` is now matched
by two lines). -/
theorem cycle_not_idempotent_counterexample :
    (cycleN 1 ⟨[], [("d", Entry.dir 493 [])], ["d/"]⟩).map SessionState.excl =
      some ["d/"] ∧
    (cycleN 2 ⟨[], [("d", Entry.dir 493 [])], ["d/"]⟩).map SessionState.excl =
      some ["d/", "d"] ∧
    cycleN 2 ⟨[], [("d", Entry.dir 493 [])], ["d/"]⟩ ≠
      cycleN 1 ⟨[], [("d", Entry.dir 493 [])], ["d/"]⟩ := by
  refine ⟨rfl, rfl, fun h => ?_⟩
  have h2 := congrArg (Option.map SessionState.excl) h
  rw [show (cycleN 2 (⟨[], [("d", Entry.dir 493 [])], ["d/"]⟩ : SessionState)).map
        SessionState.excl = some ["d/", "d"] from rfl,
    show (cycleN 1 (⟨[], [("d", Entry.dir 493 [])], ["d/"]⟩ : SessionState)).map
        SessionState.excl = some ["d/"] from rfl] at h2
  exact absurd h2 (by decide)

end ClaudeWrapper
